import Mathlib

/-!
Landing page builder (`builder/main.go`): parameter blocks, merging, substitution, page assembly

A shallow embedding of the static page generator.

Modelling conventions
* A Go `string` is modelled as the list of its Unicode code points (`Str`), i.e. the
  program is modelled on valid UTF-8 text, where the byte-wise functions of package
  `strings` agree with their code-point-wise reading.
* A run-time panic (nil dereference, index out of range, `panic(err)`) is the result `none`.
* The process-wide variables `templatesCache` and the effects on the outside world are
  fields of `State`; the file-read collaborator, the write collaborator, the clock and the
  iteration order that the runtime picks for a `range` over a map are explicit arguments.
-/

namespace Landing

/-- A Go string, as the sequence of its code points. -/
abbrev Str := List Char

/-! ## Package `strings` and `unicode` -/

/-- Go `unicode.IsSpace`: the code points with the Unicode White_Space property. -/
def isSpace (c : Char) : Bool :=
  let n := c.toNat
  (decide (9 ≤ n) && decide (n ≤ 13)) || n == 32 || n == 0x85 || n == 0xA0 || n == 0x1680 ||
    (decide (0x2000 ≤ n) && decide (n ≤ 0x200a)) || n == 0x2028 || n == 0x2029 ||
    n == 0x202f || n == 0x205f || n == 0x3000

/-- Go `strings.TrimSpace`: drop leading and trailing white space. -/
def TrimSpace (s : Str) : Str :=
  (s.dropWhile isSpace).rdropWhile isSpace

/-- Go `strings.Trim s cutset`: drop leading and trailing code points contained in `cutset`. -/
def Trim (s cutset : Str) : Str :=
  (s.dropWhile (fun c => cutset.contains c)).rdropWhile (fun c => cutset.contains c)

/-- Go `strings.Cut` with the arguments swapped: text before and after the first (leftmost)
occurrence of `sep` in the string, or `none` when `sep` does not occur. -/
def Cut (sep : Str) : Str → Option (Str × Str)
  | [] => if sep = [] then some ([], []) else none
  | c :: cs =>
    if sep.isPrefixOf (c :: cs) then some ([], (c :: cs).drop sep.length)
    else
      match Cut sep cs with
      | some (b, a) => some (c :: b, a)
      | none => none

/-- The loop of Go `strings.genSplit` for a non-empty separator: cut at the leftmost
occurrence at most `n` times; the last piece is the unsplit remainder. -/
def genSplit (sep : Str) : Nat → Str → List Str
  | 0, s => [s]
  | n + 1, s =>
    match Cut sep s with
    | none => [s]
    | some (b, a) => b :: genSplit sep n a

/-- Go `strings.Split s sep`. For a non-empty `sep` the library bounds the loop by the number
of occurrences, itself at most `len(s)`; running the loop up to `len(s)` times gives the same
pieces because it stops at the first miss. An empty `sep` explodes `s` into code points. -/
def Split (s sep : Str) : List Str :=
  if sep = [] then s.map (fun c => [c]) else genSplit sep s.length s

/-- Go `strings.SplitN s sep n` for a non-empty `sep` and `n ≥ 0`: at most `n` pieces. -/
def SplitN (s sep : Str) (n : Nat) : List Str :=
  if n = 0 then [] else genSplit sep (n - 1) s

/-- The loop of Go `strings.Replace` for a non-empty `old`: replace leftmost non-overlapping
occurrences, at most `n` of them. -/
def replaceLoop (old new : Str) : Nat → Str → Str
  | 0, s => s
  | n + 1, s =>
    match Cut old s with
    | none => s
    | some (b, a) => b ++ new ++ replaceLoop old new n a

/-- Go `strings.ReplaceAll s old new`. An empty `old` matches before every code point and at
the end. The number of occurrences of a non-empty `old` is at most `len(s)`. -/
def ReplaceAll (s old new : Str) : Str :=
  if old = new then s
  else if old = [] then new ++ s.flatMap (fun c => c :: new)
  else replaceLoop old new s.length s

/-- Go `strconv.Itoa`. -/
def Itoa (n : Int) : Str :=
  if n < 0 then '-' :: Nat.toDigits 10 n.natAbs else Nat.toDigits 10 n.toNat

/-! ## Go maps with string keys -/

/-- Assignment `m[k] = v` on a map kept as a list of entries with pairwise distinct keys. -/
def mapSet {V : Type} : List (Str × V) → Str → V → List (Str × V)
  | [], k, v => [(k, v)]
  | (k', v') :: rest, k, v => if k' = k then (k, v) :: rest else (k', v') :: mapSet rest k v

/-- Lookup `v, ok := m[k]`. -/
def mapGet {V : Type} : List (Str × V) → Str → Option V
  | [], _ => none
  | (k', v') :: rest, k => if k' = k then some v' else mapGet rest k

/-! ## Data model -/

/-- Go `TemplateParam`. -/
structure TemplateParam where
  Key : Str
  Value : Str
deriving DecidableEq, Repr

/-- Go `TemplateParams`. -/
structure TemplateParams where
  Data : List TemplateParam
deriving DecidableEq, Repr

/-- Go `Template`; the pointer field `Params` may be nil. -/
structure Template where
  RefFile : Str
  Params : Option TemplateParams
deriving DecidableEq, Repr

/-- Go `Page`; each of the four pointer fields may be nil. -/
structure Page where
  Id : Str
  ContentRefFile : Str
  ContentParams : Option TemplateParams
  HeadParams : Option TemplateParams
  HeaderParams : Option TemplateParams
  FooterParams : Option TemplateParams
deriving DecidableEq, Repr

/-- Go `Configuration`; the four slots and the entries of `Pages` are pointers. -/
structure Configuration where
  PagesToBuild : List Str
  Head : Option Template
  Body : Option Template
  BodyHeader : Option Template
  BodyFooter : Option Template
  Pages : List (Option Page)
deriving DecidableEq, Repr

/-- The order in which one `range` over a map visits the entries is picked by the Go runtime:
any rearrangement of the entries. -/
structure IterOrder where
  visit : List (Str × TemplateParam) → List (Str × TemplateParam)
  perm : ∀ m, (visit m).Perm m

/-- The iteration that visits the entries in the order the keys were first inserted. -/
def IterOrder.insertion : IterOrder := ⟨fun m => m, fun m => List.Perm.refl m⟩

/-- The iteration that visits the entries in the reverse of that order. -/
def IterOrder.reversed : IterOrder := ⟨fun m => m.reverse, fun m => List.reverse_perm m⟩

/-- The process state: the global `templatesCache`, the log of the filenames handed to the
file-read collaborator, and the log of the (filename, content) pairs that `exportHTML` has
written through the write collaborator. -/
structure State where
  templatesCache : List (Str × Str)
  reads : List Str
  written : List (Str × Str)
deriving DecidableEq, Repr

/-! ## ParamBlock parser -/

/-- The cutset of lines 68 and 69: double quote, CR, LF. -/
def partCutset : Str := ['\x22', '\r', '\n']

/-- The cutset of line 61: both braces, CR, LF. -/
def blockCutset : Str := ['\x7b', '\x7d', '\r', '\n']

/-- The record separator of line 65: comma, CR, LF. -/
def recordSep : Str := [',', '\r', '\n']

/-- The text of lines 68 and 69: `strings.Trim(strings.TrimSpace(part), "\"\r\n")`. -/
def trimPart (part : Str) : Str :=
  Trim (TrimSpace part) partCutset

/-- Line 61: the block without surrounding white space, braces and line terminators. -/
def blockContent (buf : Str) : Str :=
  Trim (TrimSpace buf) blockCutset

/-- The `for` loop of `UnmarshalJSON` (lines 66 to 76) over the remaining lines, `data` being
`tp.Data` so far. `pair[1]` on a one-element slice panics. -/
def unmarshalLoop : List Str → List TemplateParam → Option (List TemplateParam)
  | [], data => some data
  | line :: lines, data =>
    let pair := SplitN line [':'] 2
    match pair[0]?, pair[1]? with
    | some p0, some p1 => unmarshalLoop lines (data ++ [⟨trimPart p0, trimPart p1⟩])
    | _, _ => none

/-- Go `(*TemplateParams).UnmarshalJSON`: the resulting `tp.Data`, or `none` for a panic. -/
def UnmarshalJSON (buf : Str) : Option TemplateParams :=
  let str := blockContent buf
  if str = [] then some ⟨[]⟩
  else
    let lines := Split str recordSep
    match unmarshalLoop lines [] with
    | some data => some ⟨data⟩
    | none => none

/-! ## Parameter merger -/

/-- Go `mergeParams`; `o` is the order in which the final `range paramsMap` runs. -/
def mergeParams (o : IterOrder) (params defaults : List TemplateParam) : List TemplateParam :=
  if params.length = 0 then defaults
  else if defaults.length = 0 then params
  else
    let paramsMap := defaults.foldl (fun m par => mapSet m par.Key par) []
    let paramsMap := params.foldl (fun m par => mapSet m par.Key par) paramsMap
    (o.visit paramsMap).foldl (fun merged kv => merged ++ [kv.2]) []

/-! ## Template cache and compiler -/

/-- Go `readTemplateFile`; `fs` is the file-read collaborator (open and read all), `none`
when the file cannot be opened or read, in which case the function panics. -/
def readTemplateFile (fs : Str → Option Str) (filename : Str) (st : State) :
    Option (Str × State) :=
  match mapGet st.templatesCache filename with
  | some v => some (v, st)
  | none =>
    match fs filename with
    | none => none
    | some content =>
      let cache := mapSet st.templatesCache filename content
      some ((mapGet cache filename).getD [],
        { st with templatesCache := cache, reads := st.reads ++ [filename] })

/-- The `for` loop of `compileTemplate` (lines 193 to 195). -/
def substitute (content : Str) (paramsMerged : List TemplateParam) : Str :=
  paramsMerged.foldl (fun c par => ReplaceAll c par.Key par.Value) content

/-- Go `compileTemplate`. -/
def compileTemplate (fs : Str → Option Str) (o : IterOrder) (templateFile : Str)
    (params defaults : List TemplateParam) (st : State) : Option (Str × State) :=
  match readTemplateFile fs templateFile st with
  | none => none
  | some (content, st1) => some (substitute content (mergeParams o params defaults), st1)

/-! ## Page composer -/

/-- The iteration orders of the five `compileTemplate` calls of one `buildPage`. -/
structure Orders where
  head : IterOrder
  content : IterOrder
  header : IterOrder
  footer : IterOrder
  body : IterOrder

/-- Go `buildHead`. -/
def buildHead (cfg : Configuration) (fs : Str → Option Str) (o : IterOrder)
    (params : List TemplateParam) (st : State) : Option (Str × State) :=
  match cfg.Head with
  | none => none
  | some t =>
    match t.Params with
    | none => none
    | some d => compileTemplate fs o t.RefFile params d.Data st

/-- Go `buildHeader`. -/
def buildHeader (cfg : Configuration) (fs : Str → Option Str) (o : IterOrder)
    (params : List TemplateParam) (st : State) : Option (Str × State) :=
  match cfg.BodyHeader with
  | none => none
  | some t =>
    match t.Params with
    | none => none
    | some d => compileTemplate fs o t.RefFile params d.Data st

/-- Go `buildFooter`; `year` is the year of `time.Now()`. -/
def buildFooter (cfg : Configuration) (fs : Str → Option Str) (year : Int) (o : IterOrder)
    (params : List TemplateParam) (st : State) : Option (Str × State) :=
  let params := params ++ [⟨"$year".toList, Itoa year⟩]
  match cfg.BodyFooter with
  | none => none
  | some t =>
    match t.Params with
    | none => none
    | some d => compileTemplate fs o t.RefFile params d.Data st

/-- Go `exportHTML`; `wr` is the write collaborator (create the file under the output
directory and write the content), `false` when `os.Create` or `WriteString` fails, in which
case the function panics. -/
def exportHTML (wr : Str → Str → Bool) (filename content : Str) (st : State) : Option State :=
  if wr filename content = true then
    some { st with written := st.written ++ [(filename, content)] }
  else none

/-- Go `buildPage`. -/
def buildPage (cfg : Configuration) (fs : Str → Option Str) (wr : Str → Str → Bool)
    (year : Int) (os : Orders)
    (page : Page) (st : State) : Option State :=
  let outputName := page.Id ++ ".html".toList
  match page.HeadParams with
  | none => none
  | some headParams =>
  match buildHead cfg fs os.head headParams.Data st with
  | none => none
  | some (head, st1) =>
  match page.ContentParams with
  | none => none
  | some contentParams =>
  match compileTemplate fs os.content page.ContentRefFile contentParams.Data [] st1 with
  | none => none
  | some (content, st2) =>
  let headerParams : List TemplateParam :=
    match page.HeaderParams with
    | some p => p.Data
    | none => []
  match buildHeader cfg fs os.header headerParams st2 with
  | none => none
  | some (body_header, st3) =>
  let footerParams : Option (List TemplateParam) :=
    match page.HeaderParams with
    | some _ =>
      match page.FooterParams with
      | some p => some p.Data
      | none => none
    | none => some []
  match footerParams with
  | none => none
  | some footerParams =>
  match buildFooter cfg fs year os.footer footerParams st3 with
  | none => none
  | some (body_footer, st4) =>
  match cfg.Body with
  | none => none
  | some bodyT =>
  match compileTemplate fs os.body bodyT.RefFile []
      [⟨"$body_header".toList, body_header⟩, ⟨"$body_footer".toList, body_footer⟩,
        ⟨"$body_content".toList, content⟩] st4 with
  | none => none
  | some (body, st5) =>
  let fullPage := "<!DOCTYPE html><html>".toList ++ head ++ body ++ "</html>".toList
  exportHTML wr outputName fullPage st5

/-! ## Auxiliary notions used in the statements -/

/-- The last entry of `l` whose key is `K`. -/
def lastWithKey (l : List TemplateParam) (K : Str) : Option TemplateParam :=
  (l.filter (fun p => p.Key = K)).getLast?

/-- The map after the assignments `m[par.Key] = par` for `par` running over `l`. -/
def assignAll (m : List (Str × TemplateParam)) (l : List TemplateParam) :
    List (Str × TemplateParam) :=
  l.foldl (fun m par => mapSet m par.Key par) m

/-- What the parser reads from one record that has a colon: the trimmed text before the first
colon as key and the trimmed text after the first colon as value. -/
def recordParam (line : Str) : TemplateParam :=
  ⟨trimPart (line.takeWhile (fun x => x != ':')),
    trimPart ((line.dropWhile (fun x => x != ':')).tail)⟩

/-- The text of one entry of a params block: the key and the value in double quotes, with a
colon and a blank between them. -/
def entryText (kv : Str × Str) : Str :=
  '\x22' :: kv.1 ++ '\x22' :: ':' :: ' ' :: '\x22' :: kv.2 ++ ['\x22']

/-- A key or value without double quote, colon, comma, brace, CR or LF and without leading or
trailing white space. -/
def isPlain (s : Str) : Bool :=
  s.all (fun c => !(['\x22', ':', ',', '\x7b', '\x7d', '\r', '\n'].contains c)) &&
    s.head?.all (fun c => !isSpace c) && s.getLast?.all (fun c => !isSpace c)

/-- Sample explicit parameters: the key `a` twice, the key `c` once. -/
def sampleExplicit : List TemplateParam :=
  [⟨['a'], ['1']⟩, ⟨['c'], ['2']⟩, ⟨['a'], ['3']⟩]

/-- Sample default parameters: the key `b` twice. -/
def sampleDefaults : List TemplateParam :=
  [⟨['b'], ['4']⟩, ⟨['b'], ['5']⟩]

/-- The text that a read of template `f` yields in state `st`: the cached content, else the
content of the file. -/
def templateText (fs : Str → Option Str) (st : State) (f : Str) : Option Str :=
  match mapGet st.templatesCache f with
  | some v => some v
  | none => fs f

/-- The state after a successful `readTemplateFile` of `f`. -/
def afterRead (fs : Str → Option Str) (f : Str) (st : State) : State :=
  match mapGet st.templatesCache f, fs f with
  | none, some content =>
    { st with templatesCache := mapSet st.templatesCache f content, reads := st.reads ++ [f] }
  | _, _ => st

/-! ## Build driver -/

/-- The call `slices.IndexFunc(configuration.Pages, func(el *Page) bool { return el.Id ==
pageId })` of `main`: the index of the first page with that id, `some none` for the result
`-1`; the closure dereferences each entry, so a nil entry met before a match panics. -/
def indexOfPage : List (Option Page) → Str → Option (Option Nat)
  | [], _ => some none
  | none :: _, _ => none
  | some el :: rest, pageId =>
    if el.Id = pageId then some (some 0)
    else
      match indexOfPage rest pageId with
      | none => none
      | some none => some none
      | some (some idx) => some (some (idx + 1))

/-- The `for` loop of `main` (lines 94 to 104) over the remaining build list; `k` counts the
`buildPage` calls made so far and `os k` holds the map iteration orders of the next one.
Console output is not modelled. -/
def mainLoop (cfg : Configuration) (fs : Str → Option Str) (wr : Str → Str → Bool)
    (year : Int) (os : Nat → Orders) :
    List Str → Nat → State → Option State
  | [], _, st => some st
  | pageId :: rest, k, st =>
    match indexOfPage cfg.Pages pageId with
    | none => none
    | some none => mainLoop cfg fs wr year os rest k st
    | some (some idx) =>
      match cfg.Pages[idx]? with
      | some (some page) =>
        match buildPage cfg fs wr year (os k) page st with
        | none => none
        | some st1 => mainLoop cfg fs wr year os rest (k + 1) st1
      | _ => none

/-- Go `main` after `readConfig`: `cfg` is the decoded configuration. -/
def main (cfg : Configuration) (fs : Str → Option Str) (wr : Str → Str → Bool)
    (year : Int) (os : Nat → Orders)
    (st : State) : Option State :=
  mainLoop cfg fs wr year os cfg.PagesToBuild 0 st

/-! ## Further notions used in the statements -/

/-- For each identifier of the build list, in order, the first page with that id; identifiers
without a page are left out. -/
def selectedPages (buildList : List Str) (pages : List Page) : List Page :=
  buildList.filterMap (fun pageId => pages.find? (fun p => decide (p.Id = pageId)))

/-- Build the given pages one after the other with `buildPage`, the `k`-th call using the
iteration orders `os k`; a panic of one call aborts the run. -/
def buildAll (cfg : Configuration) (fs : Str → Option Str) (wr : Str → Str → Bool)
    (year : Int) (os : Nat → Orders) :
    List Page → Nat → State → Option State
  | [], _, st => some st
  | page :: rest, k, st =>
    match buildPage cfg fs wr year (os k) page st with
    | none => none
    | some st1 => buildAll cfg fs wr year os rest (k + 1) st1

/-- A sequence of `readTemplateFile` requests, each with the file system as it is at that
moment; the result is the list of returned texts and the final state. -/
def readMany : List ((Str → Option Str) × Str) → State → Option (List Str × State)
  | [], st => some ([], st)
  | (fs, f) :: rest, st =>
    match readTemplateFile fs f st with
    | none => none
    | some (v, st1) =>
      match readMany rest st1 with
      | none => none
      | some (vs, st2) => some (v :: vs, st2)

/-- The parameter that `buildFooter` appends: key `$year`, value the year in decimal. -/
def yearParam (year : Int) : TemplateParam :=
  ⟨"$year".toList, Itoa year⟩

/-- Sample template files: the body template holds the three body tokens, the footer template
the tokens `$x` and `$year`, every other file holds its own name. -/
def sampleFiles (f : Str) : Option Str :=
  if f = "body".toList then some "$body_header|$body_content|$body_footer".toList
  else if f = "footer".toList then some "$x $year".toList
  else some f

/-- Sample configuration: the four slots with templates `head`, `body`, `header`, `footer`,
each with an empty default parameter set, and the pages given. -/
def sampleConfig (buildList : List Str) (pages : List (Option Page)) : Configuration :=
  ⟨buildList, some ⟨"head".toList, some ⟨[]⟩⟩, some ⟨"body".toList, some ⟨[]⟩⟩,
    some ⟨"header".toList, some ⟨[]⟩⟩, some ⟨"footer".toList, some ⟨[]⟩⟩, pages⟩

/-- Sample iteration orders: insertion order in each of the five calls. -/
def sampleOrders : Orders :=
  ⟨IterOrder.insertion, IterOrder.insertion, IterOrder.insertion, IterOrder.insertion,
    IterOrder.insertion⟩

/-- Sample write collaborator: a flat output directory, where a name holding a path separator
cannot be created. -/
def sampleWriter (filename : Str) (_content : Str) : Bool :=
  !(filename.contains '/')

/-- The empty process state at start-up. -/
def emptyState : State := ⟨[], [], []⟩

/-- Sample page list: pages `a`, `b`, and a second page with the id `b`. -/
def samplePages : List Page :=
  [⟨"a".toList, "c0".toList, some ⟨[]⟩, some ⟨[]⟩, some ⟨[]⟩, some ⟨[]⟩⟩,
    ⟨"b".toList, "c1".toList, some ⟨[]⟩, some ⟨[]⟩, some ⟨[]⟩, some ⟨[]⟩⟩,
    ⟨"b".toList, "c2".toList, some ⟨[]⟩, some ⟨[]⟩, some ⟨[]⟩, some ⟨[]⟩⟩]

/-- The text of a tokenised template: each token is a parameter followed by plain text; a
parameter of `done` stands as its value, any other parameter as its key. -/
def renderTokens (done : List TemplateParam) : List (TemplateParam × Str) → Str
  | [] => []
  | t :: ts => (if t.1 ∈ done then t.1.Value else t.1.Key) ++ t.2 ++ renderTokens done ts

/-! ## Lemmas on maps -/

theorem mapSet_nil {V : Type} (k : Str) (v : V) : mapSet [] k v = [(k, v)] := rfl

theorem mapSet_cons {V : Type} (a : Str) (b : V) (rest : List (Str × V)) (k : Str) (v : V) :
    mapSet ((a, b) :: rest) k v = if a = k then (k, v) :: rest else (a, b) :: mapSet rest k v :=
  rfl

theorem mapGet_nil {V : Type} (k : Str) : mapGet ([] : List (Str × V)) k = none := rfl

theorem mapGet_cons {V : Type} (a : Str) (b : V) (rest : List (Str × V)) (k : Str) :
    mapGet ((a, b) :: rest) k = if a = k then some b else mapGet rest k := rfl

theorem mapGet_mapSet {V : Type} (m : List (Str × V)) (k k' : Str) (v : V) :
    mapGet (mapSet m k v) k' = if k = k' then some v else mapGet m k' := by
  induction m with
  | nil => simp only [mapSet_nil, mapGet_cons, mapGet_nil]
  | cons e rest ih =>
    obtain ⟨a, b⟩ := e
    rw [mapSet_cons]
    by_cases h : a = k
    · subst h
      rw [if_pos rfl, mapGet_cons, mapGet_cons]
      by_cases h' : a = k' <;> simp only [h', if_true, if_false]
    · rw [if_neg h, mapGet_cons, mapGet_cons, ih]
      by_cases h' : a = k'
      · subst h'
        rw [if_pos rfl, if_pos rfl, if_neg (Ne.symm h)]
      · rw [if_neg h', if_neg h']

theorem mem_keys_mapSet {V : Type} (m : List (Str × V)) (k k' : Str) (v : V) :
    k' ∈ (mapSet m k v).map Prod.fst ↔ k' = k ∨ k' ∈ m.map Prod.fst := by
  induction m with
  | nil => simp only [mapSet_nil, List.map_cons, List.map_nil, List.mem_singleton, List.not_mem_nil,
      or_false]
  | cons e rest ih =>
    obtain ⟨a, b⟩ := e
    rw [mapSet_cons]
    by_cases h : a = k
    · subst h
      simp only [if_true, List.map_cons, List.mem_cons]
      tauto
    · simp only [h, if_false, List.map_cons, List.mem_cons, ih]
      tauto

theorem nodup_keys_mapSet {V : Type} (m : List (Str × V)) (k : Str) (v : V)
    (h : (m.map Prod.fst).Nodup) : ((mapSet m k v).map Prod.fst).Nodup := by
  induction m with
  | nil => simp only [mapSet_nil, List.map_cons, List.map_nil, List.nodup_singleton]
  | cons e rest ih =>
    obtain ⟨a, b⟩ := e
    simp only [List.map_cons, List.nodup_cons] at h
    rw [mapSet_cons]
    by_cases h' : a = k
    · subst h'
      simpa only [if_true, List.map_cons, List.nodup_cons] using h
    · simp only [h', if_false, List.map_cons, List.nodup_cons]
      refine ⟨?_, ih h.2⟩
      rw [mem_keys_mapSet]
      rintro (h1 | h1)
      · exact h' h1
      · exact h.1 h1

theorem lastWithKey_nil (K : Str) : lastWithKey [] K = none := rfl

theorem lastWithKey_cons (p : TemplateParam) (l : List TemplateParam) (K : Str) :
    lastWithKey (p :: l) K =
      match lastWithKey l K with
      | some v => some v
      | none => if p.Key = K then some p else none := by
  unfold lastWithKey
  by_cases h : p.Key = K
  · rw [List.filter_cons_of_pos (by simpa using h), List.getLast?_cons, if_pos h]
    cases (List.filter (fun p => decide (p.Key = K)) l).getLast? <;> rfl
  · rw [List.filter_cons_of_neg (by simpa using h), if_neg h]
    cases (List.filter (fun p => decide (p.Key = K)) l).getLast? <;> rfl

theorem mapGet_assignAll (l : List TemplateParam) (m : List (Str × TemplateParam)) (K : Str) :
    mapGet (assignAll m l) K =
      match lastWithKey l K with
      | some v => some v
      | none => mapGet m K := by
  induction l generalizing m with
  | nil => rfl
  | cons p l ih =>
    have h := ih (mapSet m p.Key p)
    simp only [assignAll, List.foldl_cons] at h ⊢
    rw [h, lastWithKey_cons, mapGet_mapSet]
    cases lastWithKey l K with
    | some v => rfl
    | none =>
      by_cases hk : p.Key = K
      · simp only [hk, if_true]
      · simp only [hk, if_false]

theorem nodup_keys_assignAll (l : List TemplateParam) (m : List (Str × TemplateParam))
    (h : (m.map Prod.fst).Nodup) : ((assignAll m l).map Prod.fst).Nodup := by
  induction l generalizing m with
  | nil => exact h
  | cons p l ih => exact ih _ (nodup_keys_mapSet m p.Key p h)

theorem mem_mapSet_key {V : Type} (m : List (Str × V)) (k : Str) (v : V) (e : Str × V)
    (he : e ∈ mapSet m k v) : e = (k, v) ∨ e ∈ m := by
  induction m with
  | nil => simpa only [mapSet_nil, List.mem_singleton, List.not_mem_nil, or_false] using he
  | cons x rest ih =>
    obtain ⟨a, b⟩ := x
    rw [mapSet_cons] at he
    by_cases h : a = k
    · simp only [h, if_true, List.mem_cons] at he
      rcases he with he | he
      · exact Or.inl he
      · exact Or.inr (List.mem_cons_of_mem _ he)
    · simp only [h, if_false, List.mem_cons] at he
      rcases he with he | he
      · exact Or.inr (he ▸ List.mem_cons_self _ _)
      · rcases ih he with h1 | h1
        · exact Or.inl h1
        · exact Or.inr (List.mem_cons_of_mem _ h1)

theorem key_eq_of_mem_assignAll (l : List TemplateParam) (m : List (Str × TemplateParam))
    (hm : ∀ e ∈ m, e.2.Key = e.1) : ∀ e ∈ assignAll m l, e.2.Key = e.1 := by
  induction l generalizing m with
  | nil => exact hm
  | cons p l ih =>
    apply ih
    intro e he
    rcases mem_mapSet_key m p.Key p e he with h | h
    · subst h; rfl
    · exact hm e h

theorem mem_iff_mapGet {V : Type} (m : List (Str × V)) (h : (m.map Prod.fst).Nodup)
    (k : Str) (v : V) : (k, v) ∈ m ↔ mapGet m k = some v := by
  induction m with
  | nil => simp only [List.not_mem_nil, mapGet_nil, reduceCtorEq]
  | cons e rest ih =>
    obtain ⟨a, b⟩ := e
    simp only [List.map_cons, List.nodup_cons] at h
    rw [mapGet_cons]
    by_cases h' : a = k
    · subst h'
      simp only [if_true, List.mem_cons, Prod.mk.injEq, true_and, Option.some.injEq]
      constructor
      · rintro (h1 | h1)
        · exact h1.symm
        · exact absurd (List.mem_map_of_mem Prod.fst h1) h.1
      · intro h1; exact Or.inl h1.symm
    · simp only [h', if_false, List.mem_cons, Prod.mk.injEq, ← ih h.2]
      constructor
      · rintro (h1 | h1)
        · exact absurd h1.1.symm h'
        · exact h1
      · intro h1; exact Or.inr h1

theorem foldl_append_snd (l : List (Str × TemplateParam)) (acc : List TemplateParam) :
    l.foldl (fun merged kv => merged ++ [kv.2]) acc = acc ++ l.map Prod.snd := by
  induction l generalizing acc with
  | nil => simp
  | cons e l ih => simp [ih]

/-- The map that `mergeParams` builds from non-empty arguments. -/
theorem mergeParams_eq (o : IterOrder) (e d : List TemplateParam) (he : e ≠ []) (hd : d ≠ []) :
    mergeParams o e d = (o.visit (assignAll [] (d ++ e))).map Prod.snd := by
  have h1 : e.length ≠ 0 := by simpa using he
  have h2 : d.length ≠ 0 := by simpa using hd
  simp only [mergeParams, h1, h2, if_false, foldl_append_snd, List.nil_append, assignAll,
    List.foldl_append]

theorem lastWithKey_some {l : List TemplateParam} {K : Str} {p : TemplateParam}
    (h : lastWithKey l K = some p) : p.Key = K ∧ p ∈ l := by
  unfold lastWithKey at h
  have := List.mem_of_getLast?_eq_some h
  have h2 := List.mem_filter.1 this
  exact ⟨by simpa using h2.2, h2.1⟩

theorem lastWithKey_isSome {l : List TemplateParam} {K : Str} (h : K ∈ l.map TemplateParam.Key) :
    ∃ p, lastWithKey l K = some p := by
  unfold lastWithKey
  obtain ⟨q, hq, hk⟩ := List.mem_map.1 h
  have hne : l.filter (fun p => decide (p.Key = K)) ≠ [] := by
    intro h0
    have : q ∈ l.filter (fun p => decide (p.Key = K)) := List.mem_filter.2 ⟨hq, by simpa using hk⟩
    rw [h0] at this
    exact absurd this (List.not_mem_nil _)
  exact ⟨_, List.getLast?_eq_getLast _ hne⟩

theorem lastWithKey_append (d e : List TemplateParam) (K : Str) :
    lastWithKey (d ++ e) K =
      match lastWithKey e K with
      | some v => some v
      | none => lastWithKey d K := by
  induction d with
  | nil =>
    rw [List.nil_append, lastWithKey_nil]
    cases lastWithKey e K <;> rfl
  | cons p d ih =>
    rw [List.cons_append, lastWithKey_cons, ih, lastWithKey_cons]
    cases lastWithKey e K <;> rfl

theorem filter_key_of_mapGet {V : Type} (m : List (Str × V)) (h : (m.map Prod.fst).Nodup)
    (k : Str) (v : V) (hg : mapGet m k = some v) :
    m.filter (fun kv => decide (kv.1 = k)) = [(k, v)] := by
  induction m with
  | nil => simp only [mapGet_nil, reduceCtorEq] at hg
  | cons e rest ih =>
    obtain ⟨a, b⟩ := e
    simp only [List.map_cons, List.nodup_cons] at h
    rw [mapGet_cons] at hg
    by_cases h' : a = k
    · subst h'
      simp only [if_true, Option.some.injEq] at hg
      subst hg
      rw [List.filter_cons_of_pos (by simp)]
      congr 1
      apply List.filter_eq_nil_iff.2
      intro x hx hx'
      simp only [decide_eq_true_eq] at hx'
      exact h.1 (hx' ▸ List.mem_map_of_mem Prod.fst hx)
    · simp only [h', if_false] at hg
      rw [List.filter_cons_of_neg (by simpa using h')]
      exact ih h.2 hg

theorem mapGet_merged (e d : List TemplateParam) (K : Str) :
    mapGet (assignAll [] (d ++ e)) K = lastWithKey (d ++ e) K := by
  rw [mapGet_assignAll]
  cases lastWithKey (d ++ e) K <;> rfl

theorem nodup_keys_merged (l : List TemplateParam) :
    ((assignAll [] l).map Prod.fst).Nodup :=
  nodup_keys_assignAll l [] List.nodup_nil

theorem key_eq_merged (l : List TemplateParam) : ∀ x ∈ assignAll [] l, x.2.Key = x.1 :=
  key_eq_of_mem_assignAll l [] (fun _ h => absurd h (List.not_mem_nil _))

theorem mem_mergeParams_iff (o : IterOrder) (e d : List TemplateParam) (he : e ≠ [])
    (hd : d ≠ []) (p : TemplateParam) :
    p ∈ mergeParams o e d ↔ lastWithKey (d ++ e) p.Key = some p := by
  rw [mergeParams_eq o e d he hd, ← mapGet_merged,
    ← mem_iff_mapGet _ (nodup_keys_merged _), List.mem_map]
  constructor
  · rintro ⟨x, hx, rfl⟩
    have hx' := (o.perm _).subset hx
    have := key_eq_merged _ x hx'
    rw [this]
    exact hx'
  · intro h
    exact ⟨(p.Key, p), (o.perm _).symm.subset h, rfl⟩

theorem nodup_mergeParams_keys (o : IterOrder) (e d : List TemplateParam) (he : e ≠ [])
    (hd : d ≠ []) : ((mergeParams o e d).map TemplateParam.Key).Nodup := by
  rw [mergeParams_eq o e d he hd, List.map_map]
  have h1 : ((o.visit (assignAll [] (d ++ e))).map Prod.fst).Nodup :=
    ((o.perm _).map Prod.fst).nodup_iff.2 (nodup_keys_merged _)
  have h2 : (o.visit (assignAll [] (d ++ e))).map (TemplateParam.Key ∘ Prod.snd)
      = (o.visit (assignAll [] (d ++ e))).map Prod.fst := by
    apply List.map_congr_left
    intro x hx
    exact key_eq_merged _ x ((o.perm _).subset hx)
  rw [h2]
  exact h1

theorem mergeParams_nil_right (o : IterOrder) (P : List TemplateParam) :
    mergeParams o P [] = P := by
  cases P <;> simp [mergeParams]

theorem mergeParams_nil_left (o : IterOrder) (D : List TemplateParam) :
    mergeParams o [] D = D := by
  simp [mergeParams]

/-- C1. Merge identity: `mergeParams(P, [])` is `P` and `mergeParams([], D)` is `D`, as the
same sequences (same entries, same order, duplicates kept), whatever the map iteration order. -/
theorem mergeParams_identity (o : IterOrder) (P D : List TemplateParam) :
    mergeParams o P [] = P ∧ mergeParams o [] D = D := by
  exact ⟨mergeParams_nil_right o P, mergeParams_nil_left o D⟩

/-- C2. Merge override: for non-empty `explicit` and `defaults` and a key `K` occurring in
`explicit`, the result of `mergeParams` has exactly one entry with key `K`, namely the last
entry with key `K` of `explicit`. -/
theorem mergeParams_override (o : IterOrder) (explicit defaults : List TemplateParam) (K : Str)
    (he : explicit ≠ []) (hd : defaults ≠ []) (hK : K ∈ explicit.map TemplateParam.Key) :
    ∃ v, (explicit.filter (fun p => decide (p.Key = K))).getLast? = some v ∧
      (mergeParams o explicit defaults).filter (fun p => decide (p.Key = K)) = [v] := by
  obtain ⟨v, hv⟩ := lastWithKey_isSome hK
  refine ⟨v, hv, ?_⟩
  have hg : mapGet (assignAll [] (defaults ++ explicit)) K = some v := by
    rw [mapGet_merged, lastWithKey_append, hv]
  rw [mergeParams_eq o explicit defaults he hd, List.filter_map]
  have hc : (o.visit (assignAll [] (defaults ++ explicit))).filter
        ((fun p : TemplateParam => decide (p.Key = K)) ∘ Prod.snd)
      = (o.visit (assignAll [] (defaults ++ explicit))).filter (fun kv => decide (kv.1 = K)) := by
    apply List.filter_congr
    intro x hx
    have := key_eq_merged _ x ((o.perm _).subset hx)
    simp only [Function.comp, this]
  rw [hc]
  have hp := (o.perm (assignAll [] (defaults ++ explicit))).filter (fun kv => decide (kv.1 = K))
  rw [filter_key_of_mapGet _ (nodup_keys_merged _) K v hg] at hp
  rw [List.perm_singleton.1 hp]
  rfl

theorem mergeParams_override_witness :
    ∃ v, ([(⟨['a'], ['1']⟩ : TemplateParam), ⟨['a'], ['2']⟩].filter
        (fun p => decide (p.Key = ['a']))).getLast? = some v ∧
      (mergeParams IterOrder.reversed [⟨['a'], ['1']⟩, ⟨['a'], ['2']⟩]
        [⟨['a'], ['0']⟩, ⟨['b'], ['3']⟩]).filter (fun p => decide (p.Key = ['a'])) = [v] :=
  mergeParams_override IterOrder.reversed [⟨['a'], ['1']⟩, ⟨['a'], ['2']⟩]
    [⟨['a'], ['0']⟩, ⟨['b'], ['3']⟩] ['a'] (by decide) (by decide) (by decide)

/-- C3. Merge key set: for non-empty `explicit` and `defaults` the result of `mergeParams` is,
up to a permutation, the list holding for each distinct key of `defaults ++ explicit` the last
entry with that key; so its length is the number of distinct keys, its keys are exactly the
keys of the inputs, and a key occurring only in `defaults` carries its last entry there. -/
theorem mergeParams_key_set (o : IterOrder) (explicit defaults : List TemplateParam)
    (he : explicit ≠ []) (hd : defaults ≠ []) :
    (mergeParams o explicit defaults).Perm
        ((((defaults ++ explicit).map TemplateParam.Key).dedup).filterMap
          (lastWithKey (defaults ++ explicit))) ∧
      (mergeParams o explicit defaults).length
        = (((defaults ++ explicit).map TemplateParam.Key).dedup).length ∧
      (∀ K, K ∈ (mergeParams o explicit defaults).map TemplateParam.Key
        ↔ K ∈ (defaults ++ explicit).map TemplateParam.Key) ∧
      (∀ K, K ∈ defaults.map TemplateParam.Key → K ∉ explicit.map TemplateParam.Key →
        ∃ v, lastWithKey defaults K = some v ∧
          (mergeParams o explicit defaults).filter (fun p => decide (p.Key = K)) = [v]) := by
  have hkeys : ((mergeParams o explicit defaults).map TemplateParam.Key).Perm
      (((defaults ++ explicit).map TemplateParam.Key).dedup) := by
    apply (List.perm_ext_iff_of_nodup (nodup_mergeParams_keys o explicit defaults he hd)
      (List.nodup_dedup _)).2
    intro K
    rw [List.mem_dedup, List.mem_map]
    constructor
    · rintro ⟨p, hp, rfl⟩
      have := (mem_mergeParams_iff o explicit defaults he hd p).1 hp
      exact List.mem_map_of_mem _ (lastWithKey_some this).2
    · intro hK
      obtain ⟨p, hp⟩ := lastWithKey_isSome hK
      have hk := (lastWithKey_some hp).1
      refine ⟨p, (mem_mergeParams_iff o explicit defaults he hd p).2 ?_, hk⟩
      rw [hk]; exact hp
  refine ⟨?_, ?_, ?_, ?_⟩
  · apply (List.perm_ext_iff_of_nodup
      (List.Nodup.of_map _ (nodup_mergeParams_keys o explicit defaults he hd)) ?_).2
    · intro p
      rw [mem_mergeParams_iff o explicit defaults he hd, List.mem_filterMap]
      constructor
      · intro h
        exact ⟨p.Key, List.mem_dedup.2 (List.mem_map_of_mem _ (lastWithKey_some h).2), h⟩
      · rintro ⟨K, _, h⟩
        rw [(lastWithKey_some h).1]; exact h
    · apply List.Nodup.filterMap _ (List.nodup_dedup _)
      intro K K' p h h'
      rw [Option.mem_def] at h h'
      rw [← (lastWithKey_some h).1, ← (lastWithKey_some h').1]
  · rw [← hkeys.length_eq, List.length_map]
  · intro K
    rw [hkeys.mem_iff, List.mem_dedup]
  · intro K hKd hKe
    obtain ⟨v, hv⟩ := lastWithKey_isSome hKd
    refine ⟨v, hv, ?_⟩
    have hnone : lastWithKey explicit K = none := by
      cases h : lastWithKey explicit K with
      | none => rfl
      | some q =>
        have := lastWithKey_some h
        exact absurd (this.1 ▸ List.mem_map_of_mem TemplateParam.Key this.2) hKe
    have hg : mapGet (assignAll [] (defaults ++ explicit)) K = some v := by
      rw [mapGet_merged, lastWithKey_append, hnone, hv]
    rw [mergeParams_eq o explicit defaults he hd, List.filter_map]
    have hc : (o.visit (assignAll [] (defaults ++ explicit))).filter
          ((fun p : TemplateParam => decide (p.Key = K)) ∘ Prod.snd)
        = (o.visit (assignAll [] (defaults ++ explicit))).filter
            (fun kv => decide (kv.1 = K)) := by
      apply List.filter_congr
      intro x hx
      have := key_eq_merged _ x ((o.perm _).subset hx)
      simp only [Function.comp, this]
    rw [hc]
    have hp := (o.perm (assignAll [] (defaults ++ explicit))).filter (fun kv => decide (kv.1 = K))
    rw [filter_key_of_mapGet _ (nodup_keys_merged _) K v hg] at hp
    rw [List.perm_singleton.1 hp]
    rfl

/-! ## Lemmas on `Cut`, `Split`, `Trim` -/

theorem Cut_nil (sep : Str) : Cut sep [] = if sep = [] then some ([], []) else none := rfl

theorem Cut_cons (sep : Str) (c : Char) (cs : Str) :
    Cut sep (c :: cs) =
      if sep.isPrefixOf (c :: cs) then some ([], (c :: cs).drop sep.length)
      else
        match Cut sep cs with
        | some (b, a) => some (c :: b, a)
        | none => none := rfl

theorem Cut_char_none (c : Char) (s : Str) (h : c ∉ s) : Cut [c] s = none := by
  induction s with
  | nil => rfl
  | cons x xs ih =>
    rw [List.mem_cons, not_or] at h
    rw [Cut_cons, ih h.2]
    have : [c].isPrefixOf (x :: xs) = false := by
      simp [List.isPrefixOf, h.1]
    rw [this]
    rfl

theorem Cut_char_some (c : Char) (a b : Str) (h : c ∉ a) :
    Cut [c] (a ++ c :: b) = some (a, b) := by
  induction a with
  | nil =>
    rw [List.nil_append, Cut_cons]
    simp [List.isPrefixOf]
  | cons x xs ih =>
    rw [List.mem_cons, not_or] at h
    rw [List.cons_append, Cut_cons, ih h.2]
    have : [c].isPrefixOf (x :: (xs ++ c :: b)) = false := by
      simp [List.isPrefixOf, h.1]
    rw [this]
    rfl

theorem Cut_char_of_mem (c : Char) (s : Str) (h : c ∈ s) :
    Cut [c] s = some (s.takeWhile (fun x => x != c), (s.dropWhile (fun x => x != c)).tail) := by
  induction s with
  | nil => exact absurd h (List.not_mem_nil _)
  | cons x xs ih =>
    by_cases hx : x = c
    · subst hx
      rw [Cut_cons]
      simp [List.isPrefixOf, List.takeWhile, List.dropWhile]
    · have hm : c ∈ xs := by
        rcases List.mem_cons.1 h with h1 | h1
        · exact absurd h1.symm hx
        · exact h1
      rw [Cut_cons, ih hm]
      have : [c].isPrefixOf (x :: xs) = false := by
        simp [List.isPrefixOf, Ne.symm hx]
      rw [this]
      have hb : (x != c) = true := by simpa using hx
      have e1 : List.takeWhile (fun y => y != c) (x :: xs)
          = x :: List.takeWhile (fun y => y != c) xs := List.takeWhile_cons_of_pos hb
      have e2 : List.dropWhile (fun y => y != c) (x :: xs)
          = List.dropWhile (fun y => y != c) xs := List.dropWhile_cons_of_pos hb
      rw [e1, e2]
      rfl

theorem Cut_char_eq_none_iff (c : Char) (s : Str) : Cut [c] s = none ↔ c ∉ s := by
  constructor
  · intro h hm
    rw [Cut_char_of_mem c s hm] at h
    exact absurd h (by simp)
  · exact Cut_char_none c s

theorem isPrefixOf_recordSep_false (c : Char) (l R : Str) (h : '\r' ∉ l) :
    recordSep.isPrefixOf (c :: (l ++ recordSep ++ R)) = false := by
  cases l with
  | nil => simp [recordSep, List.isPrefixOf]
  | cons d l =>
    rw [List.mem_cons, not_or] at h
    simp [recordSep, List.isPrefixOf, h.1]

theorem isPrefixOf_recordSep_false' (l : Str) (h : '\r' ∉ l) :
    recordSep.isPrefixOf l = false := by
  match l with
  | [] => rfl
  | [a] => simp [recordSep, List.isPrefixOf]
  | a :: b :: l =>
    simp only [List.mem_cons, not_or] at h
    simp [recordSep, List.isPrefixOf, h.2.1]

theorem Cut_recordSep_none (l : Str) (h : '\r' ∉ l) : Cut recordSep l = none := by
  induction l with
  | nil => rfl
  | cons x xs ih =>
    rw [Cut_cons, isPrefixOf_recordSep_false' _ h, ih (fun hm => h (List.mem_cons_of_mem _ hm))]
    rfl

theorem Cut_recordSep_append (l R : Str) (h : '\r' ∉ l) :
    Cut recordSep (l ++ recordSep ++ R) = some (l, R) := by
  induction l with
  | nil =>
    show Cut recordSep (',' :: '\r' :: '\n' :: R) = some ([], R)
    rw [Cut_cons]
    simp [recordSep, List.isPrefixOf]
  | cons x xs ih =>
    have h2 : '\r' ∉ xs := fun hm => h (List.mem_cons_of_mem _ hm)
    rw [List.cons_append, List.cons_append, Cut_cons, isPrefixOf_recordSep_false x xs R h2,
      ih h2]
    rfl

theorem intercalate_cons_cons (sep a b : Str) (l : List Str) :
    List.intercalate sep (a :: b :: l) = a ++ sep ++ List.intercalate sep (b :: l) := by
  simp [List.intercalate, List.intersperse]

theorem intercalate_singleton (sep a : Str) : List.intercalate sep [a] = a := by
  simp [List.intercalate, List.intersperse]

theorem genSplit_intercalate (ls : List Str) (hne : ls ≠ []) (h : ∀ l ∈ ls, '\r' ∉ l)
    (n : Nat) (hn : ls.length ≤ n + 1) :
    genSplit recordSep n (List.intercalate recordSep ls) = ls := by
  induction ls generalizing n with
  | nil => exact absurd rfl hne
  | cons a rest ih =>
    cases rest with
    | nil =>
      rw [intercalate_singleton]
      cases n with
      | zero => rfl
      | succ n =>
        simp only [genSplit, Cut_recordSep_none a (h a (List.mem_cons_self _ _))]
    | cons b rest =>
      cases n with
      | zero => simp at hn
      | succ n =>
        rw [intercalate_cons_cons]
        simp only [genSplit, Cut_recordSep_append a _ (h a (List.mem_cons_self _ _))]
        congr 1
        apply ih (List.cons_ne_nil _ _) (fun l hl => h l (List.mem_cons_of_mem _ hl))
        simp only [List.length_cons] at hn ⊢
        omega

theorem length_le_intercalate (ls : List Str) :
    ls.length ≤ (List.intercalate recordSep ls).length + 1 := by
  induction ls with
  | nil => simp
  | cons a rest ih =>
    cases rest with
    | nil => simp
    | cons b rest =>
      rw [intercalate_cons_cons]
      simp only [List.length_cons, List.length_append, recordSep] at ih ⊢
      omega

theorem Split_intercalate (ls : List Str) (hne : ls ≠ []) (h : ∀ l ∈ ls, '\r' ∉ l) :
    Split (List.intercalate recordSep ls) recordSep = ls := by
  unfold Split
  rw [if_neg (by simp [recordSep])]
  exact genSplit_intercalate ls hne h _ (length_le_intercalate ls)

theorem unmarshalLoop_cons_of_mem (line : Str) (lines : List Str) (data : List TemplateParam)
    (h : ':' ∈ line) :
    unmarshalLoop (line :: lines) data = unmarshalLoop lines (data ++ [recordParam line]) := by
  simp only [unmarshalLoop, SplitN, genSplit, Cut_char_of_mem ':' line h]
  rfl

theorem unmarshalLoop_cons_of_not_mem (line : Str) (lines : List Str)
    (data : List TemplateParam) (h : ':' ∉ line) :
    unmarshalLoop (line :: lines) data = none := by
  simp only [unmarshalLoop, SplitN, genSplit, Cut_char_none ':' line h]
  rfl

theorem unmarshalLoop_of_all (lines : List Str) (data : List TemplateParam)
    (h : ∀ line ∈ lines, ':' ∈ line) :
    unmarshalLoop lines data = some (data ++ lines.map recordParam) := by
  induction lines generalizing data with
  | nil => simp [unmarshalLoop]
  | cons line lines ih =>
    rw [unmarshalLoop_cons_of_mem line lines data (h line (List.mem_cons_self _ _)),
      ih _ (fun l hl => h l (List.mem_cons_of_mem _ hl))]
    simp

theorem unmarshalLoop_eq_none_iff (lines : List Str) (data : List TemplateParam) :
    unmarshalLoop lines data = none ↔ ∃ line ∈ lines, ':' ∉ line := by
  induction lines generalizing data with
  | nil => simp [unmarshalLoop]
  | cons line lines ih =>
    by_cases h : ':' ∈ line
    · rw [unmarshalLoop_cons_of_mem line lines data h, ih]
      constructor
      · rintro ⟨l, hl, hc⟩
        exact ⟨l, List.mem_cons_of_mem _ hl, hc⟩
      · rintro ⟨l, hl, hc⟩
        rcases List.mem_cons.1 hl with h1 | h1
        · exact absurd (h1 ▸ h) hc
        · exact ⟨l, h1, hc⟩
    · rw [unmarshalLoop_cons_of_not_mem line lines data h]
      exact ⟨fun _ => ⟨line, List.mem_cons_self _ _, h⟩, fun _ => rfl⟩

/-- The result of `UnmarshalJSON` in closed form. -/
theorem UnmarshalJSON_eq (buf : Str) :
    UnmarshalJSON buf =
      if blockContent buf = [] then some ⟨[]⟩
      else if ∀ line ∈ Split (blockContent buf) recordSep, ':' ∈ line then
        some ⟨(Split (blockContent buf) recordSep).map recordParam⟩
      else none := by
  unfold UnmarshalJSON
  by_cases h0 : blockContent buf = []
  · simp only [h0, if_true]
  · simp only [h0, if_false]
    by_cases h1 : ∀ line ∈ Split (blockContent buf) recordSep, ':' ∈ line
    · rw [if_pos h1, unmarshalLoop_of_all _ _ h1]
      rfl
    · rw [if_neg h1]
      have : unmarshalLoop (Split (blockContent buf) recordSep) [] = none := by
        rw [unmarshalLoop_eq_none_iff]
        push_neg at h1
        exact h1
      rw [this]

theorem dropWhile_append_all (p : Char → Bool) (a l : Str) (h : ∀ c ∈ a, p c = true) :
    (a ++ l).dropWhile p = l.dropWhile p := by
  induction a with
  | nil => rfl
  | cons x xs ih =>
    rw [List.cons_append, List.dropWhile_cons_of_pos (h x (List.mem_cons_self _ _))]
    exact ih (fun c hc => h c (List.mem_cons_of_mem _ hc))

theorem rdropWhile_append_all (p : Char → Bool) (l b : Str) (h : ∀ c ∈ b, p c = true) :
    (l ++ b).rdropWhile p = l.rdropWhile p := by
  unfold List.rdropWhile
  rw [List.reverse_append, dropWhile_append_all p b.reverse l.reverse
    (fun c hc => h c (List.mem_reverse.1 hc))]

theorem dropWhile_of_head (p : Char → Bool) (X : Str)
    (h : ∀ c, X.head? = some c → p c = false) : X.dropWhile p = X := by
  cases X with
  | nil => rfl
  | cons x xs =>
    exact List.dropWhile_cons_of_neg (by simp [h x rfl])

theorem rdropWhile_of_last (p : Char → Bool) (X : Str)
    (h : ∀ c, X.getLast? = some c → p c = false) : X.rdropWhile p = X := by
  unfold List.rdropWhile
  rw [dropWhile_of_head p X.reverse, List.reverse_reverse]
  intro c hc
  apply h
  rw [List.getLast?_eq_head?_reverse]
  exact hc

theorem dropWhile_all (p : Char → Bool) (b : Str) (h : ∀ c ∈ b, p c = true) :
    b.dropWhile p = [] := by
  have := dropWhile_append_all p b [] h
  simpa using this

/-- Trimming by `p` at both ends removes a prefix and a suffix of characters satisfying `p`
around a text that neither begins nor ends with such a character. -/
theorem trim_wrap (p : Char → Bool) (a X b : Str) (ha : ∀ c ∈ a, p c = true)
    (hb : ∀ c ∈ b, p c = true) (hhead : ∀ c, X.head? = some c → p c = false)
    (hlast : ∀ c, X.getLast? = some c → p c = false) :
    ((a ++ X ++ b).dropWhile p).rdropWhile p = X := by
  rw [List.append_assoc, dropWhile_append_all p a _ ha]
  cases X with
  | nil =>
    rw [List.nil_append, dropWhile_all p b hb]
    rfl
  | cons x xs =>
    rw [List.cons_append, List.dropWhile_cons_of_neg (by simp [hhead x rfl]),
      ← List.cons_append, rdropWhile_append_all p _ b hb]
    exact rdropWhile_of_last p _ hlast

theorem intercalate_cons_exists (a : Str) (rest : List Str) :
    ∃ Y, List.intercalate recordSep (a :: rest) = a ++ Y := by
  cases rest with
  | nil => exact ⟨[], by rw [intercalate_singleton, List.append_nil]⟩
  | cons b rest => exact ⟨_, by rw [intercalate_cons_cons, List.append_assoc]⟩

theorem intercalate_last_exists (ls : List Str) (b : Str) (h : ls.getLast? = some b) :
    ∃ Z, List.intercalate recordSep ls = Z ++ b := by
  induction ls with
  | nil => simp at h
  | cons a rest ih =>
    cases rest with
    | nil =>
      simp only [List.getLast?_singleton, Option.some.injEq] at h
      exact ⟨[], by rw [intercalate_singleton, h, List.nil_append]⟩
    | cons c rest =>
      rw [List.getLast?_cons_cons] at h
      obtain ⟨Z, hZ⟩ := ih h
      exact ⟨a ++ recordSep ++ Z, by rw [intercalate_cons_cons, hZ, List.append_assoc]; simp⟩

theorem recordParam_of_colon (K V : Str) (h : ':' ∉ K) :
    recordParam (K ++ ':' :: V) = ⟨trimPart K, trimPart V⟩ := by
  have h1 := Cut_char_some ':' K V h
  rw [Cut_char_of_mem ':' (K ++ ':' :: V) (by simp)] at h1
  simp only [Option.some.injEq, Prod.mk.injEq] at h1
  unfold recordParam
  rw [h1.1, h1.2]

/-- Parsing a block of CRLF-separated lines that all have a colon. -/
theorem UnmarshalJSON_lines (ls : List Str) (first last : Str)
    (hfirst : ls.head? = some first) (hlast : ls.getLast? = some last)
    (hcolon : ∀ l ∈ ls, ':' ∈ l) (hcr : ∀ l ∈ ls, '\r' ∉ l)
    (hf : ∀ c, first.head? = some c → blockCutset.contains c = false)
    (hl : ∀ c, last.getLast? = some c → blockCutset.contains c = false) :
    UnmarshalJSON ('\x7b' :: List.intercalate recordSep ls ++ ['\x7d'])
      = some ⟨ls.map recordParam⟩ := by
  have hne : ls ≠ [] := by
    intro h0; rw [h0] at hfirst; simp at hfirst
  obtain ⟨a, rest, rfl⟩ := List.exists_cons_of_ne_nil hne
  simp only [List.head?_cons, Option.some.injEq] at hfirst
  subst hfirst
  have hane : a ≠ [] := by
    intro h0
    have := hcolon a (List.mem_cons_self _ _)
    rw [h0] at this
    exact absurd this (List.not_mem_nil _)
  have hlastmem : last ∈ a :: rest := List.mem_of_getLast?_eq_some hlast
  have hlne : last ≠ [] := by
    intro h0
    have := hcolon last hlastmem
    rw [h0] at this
    exact absurd this (List.not_mem_nil _)
  obtain ⟨Y, hY⟩ := intercalate_cons_exists a rest
  obtain ⟨Z, hZ⟩ := intercalate_last_exists (a :: rest) last hlast
  have hXhead : ∀ c, (List.intercalate recordSep (a :: rest)).head? = some c →
      blockCutset.contains c = false := by
    intro c hc
    rw [hY] at hc
    obtain ⟨x, xs, rfl⟩ := List.exists_cons_of_ne_nil hane
    exact hf c hc
  have hXlast : ∀ c, (List.intercalate recordSep (a :: rest)).getLast? = some c →
      blockCutset.contains c = false := by
    intro c hc
    rw [hZ, List.getLast?_append_of_ne_nil _ hlne] at hc
    exact hl c hc
  have hXne : List.intercalate recordSep (a :: rest) ≠ [] := by
    rw [hY]
    intro h0
    exact hane (List.append_eq_nil.1 h0).1
  have hts : TrimSpace ('\x7b' :: List.intercalate recordSep (a :: rest) ++ ['\x7d'])
      = '\x7b' :: List.intercalate recordSep (a :: rest) ++ ['\x7d'] := by
    have := trim_wrap isSpace [] ('\x7b' :: List.intercalate recordSep (a :: rest) ++ ['\x7d']) []
      (fun c hc => absurd hc (List.not_mem_nil _)) (fun c hc => absurd hc (List.not_mem_nil _))
      (by intro c hc
          simp only [List.cons_append, List.head?_cons, Option.some.injEq] at hc
          subst hc; decide)
      (by intro c hc
          rw [List.getLast?_append_of_ne_nil _ (List.cons_ne_nil _ _)] at hc
          simp only [List.getLast?_singleton, Option.some.injEq] at hc
          subst hc; decide)
    simpa [TrimSpace] using this
  have hbc : blockContent ('\x7b' :: List.intercalate recordSep (a :: rest) ++ ['\x7d'])
      = List.intercalate recordSep (a :: rest) := by
    unfold blockContent
    rw [hts]
    have := trim_wrap (fun c => blockCutset.contains c) ['\x7b']
      (List.intercalate recordSep (a :: rest)) ['\x7d']
      (by intro c hc; rw [List.mem_singleton] at hc; subst hc; decide)
      (by intro c hc; rw [List.mem_singleton] at hc; subst hc; decide)
      hXhead hXlast
    simpa [Trim] using this
  rw [UnmarshalJSON_eq, hbc, if_neg hXne, Split_intercalate _ hne hcr, if_pos hcolon]

theorem trimPart_quoted (ws k : Str) (hws : ∀ c ∈ ws, isSpace c = true)
    (hk : ∀ c ∈ k, partCutset.contains c = false) :
    trimPart (ws ++ '\x22' :: k ++ ['\x22']) = k := by
  have h1 : TrimSpace (ws ++ '\x22' :: k ++ ['\x22']) = '\x22' :: k ++ ['\x22'] := by
    have := trim_wrap isSpace ws ('\x22' :: k ++ ['\x22']) [] hws
      (fun c hc => absurd hc (List.not_mem_nil _))
      (by intro c hc
          simp only [List.cons_append, List.head?_cons, Option.some.injEq] at hc
          subst hc; decide)
      (by intro c hc
          rw [List.getLast?_append_of_ne_nil _ (List.cons_ne_nil _ _)] at hc
          simp only [List.getLast?_singleton, Option.some.injEq] at hc
          subst hc; decide)
    simpa [TrimSpace] using this
  unfold trimPart
  rw [h1]
  have := trim_wrap (fun c => partCutset.contains c) ['\x22'] k ['\x22']
    (by intro c hc; rw [List.mem_singleton] at hc; subst hc; decide)
    (by intro c hc; rw [List.mem_singleton] at hc; subst hc; decide)
    (fun c hc => hk c (List.mem_of_mem_head? hc))
    (fun c hc => hk c (List.mem_of_getLast?_eq_some hc))
  simpa [Trim] using this

theorem isPlain_mem (s : Str) (h : isPlain s = true) (c : Char) (hc : c ∈ s) :
    c ≠ '\x22' ∧ c ≠ ':' ∧ c ≠ ',' ∧ c ≠ '\x7b' ∧ c ≠ '\x7d' ∧ c ≠ '\r' ∧ c ≠ '\n' := by
  simp only [isPlain, Bool.and_eq_true, List.all_eq_true] at h
  have := h.1.1 c hc
  simpa using this

theorem recordParam_entryText (kv : Str × Str) (h1 : isPlain kv.1 = true)
    (h2 : isPlain kv.2 = true) : recordParam (entryText kv) = ⟨kv.1, kv.2⟩ := by
  have e : entryText kv = ('\x22' :: kv.1 ++ ['\x22']) ++ ':' :: ([' '] ++ '\x22' :: kv.2 ++ ['\x22']) := by
    simp [entryText]
  have hk : ':' ∉ '\x22' :: kv.1 ++ ['\x22'] := by
    intro hm
    simp only [List.cons_append, List.mem_cons, List.mem_append, List.mem_singleton,
      List.not_mem_nil, or_false] at hm
    rcases hm with hm | hm | hm
    · exact absurd hm (by decide)
    · exact (isPlain_mem _ h1 _ hm).2.1 rfl
    · exact absurd hm (by decide)
  rw [e, recordParam_of_colon _ _ hk]
  have t1 := trimPart_quoted [] kv.1 (fun c hc => absurd hc (List.not_mem_nil _))
    (fun c hc => by
      have := isPlain_mem _ h1 c hc
      simp [partCutset, this.1, this.2.2.2.2.2.1, this.2.2.2.2.2.2])
  have t2 := trimPart_quoted [' '] kv.2
    (by intro c hc; rw [List.mem_singleton] at hc; subst hc; decide)
    (fun c hc => by
      have := isPlain_mem _ h2 c hc
      simp [partCutset, this.1, this.2.2.2.2.2.1, this.2.2.2.2.2.2])
  rw [List.nil_append] at t1
  rw [t1, t2]

theorem entryText_props (kv : Str × Str) (h1 : isPlain kv.1 = true) (h2 : isPlain kv.2 = true) :
    ':' ∈ entryText kv ∧ '\r' ∉ entryText kv ∧
      (∀ c, (entryText kv).head? = some c → blockCutset.contains c = false) ∧
      (∀ c, (entryText kv).getLast? = some c → blockCutset.contains c = false) := by
  refine ⟨by simp [entryText], ?_, ?_, ?_⟩
  · have r1 : '\r' ∉ kv.1 := fun hm => (isPlain_mem _ h1 _ hm).2.2.2.2.2.1 rfl
    have r2 : '\r' ∉ kv.2 := fun hm => (isPlain_mem _ h2 _ hm).2.2.2.2.2.1 rfl
    simp [entryText, r1, r2]
  · intro c hc
    simp only [entryText, List.cons_append, List.head?_cons, Option.some.injEq] at hc
    subst hc; decide
  · intro c hc
    have e : entryText kv = ('\x22' :: kv.1 ++ '\x22' :: ':' :: ' ' :: '\x22' :: kv.2) ++ ['\x22'] := by
      simp [entryText]
    rw [e, List.getLast?_append_of_ne_nil _ (List.cons_ne_nil _ _)] at hc
    simp only [List.getLast?_singleton, Option.some.injEq] at hc
    subst hc; decide

/-- C4. ParamBlock parse: a block of `n ≥ 1` quoted entries with plain keys and values,
separated by comma CR LF, parses to exactly the pairs, in order; the empty block parses to
the empty sequence; the two-entry block of the spec parses to its two pairs. -/
theorem UnmarshalJSON_entries :
    (∀ kvs : List (Str × Str), kvs ≠ [] →
      (∀ kv ∈ kvs, isPlain kv.1 = true ∧ isPlain kv.2 = true) →
      UnmarshalJSON ('\x7b' :: List.intercalate recordSep (kvs.map entryText) ++ ['\x7d'])
        = some ⟨kvs.map (fun kv => ⟨kv.1, kv.2⟩)⟩) ∧
    UnmarshalJSON "\x7b\x7d".toList = some ⟨[]⟩ ∧
    UnmarshalJSON "\x7b\"$a\": \"1\",\r\n\"$b\": \"2\"\x7d".toList
      = some ⟨[⟨"$a".toList, "1".toList⟩, ⟨"$b".toList, "2".toList⟩]⟩ := by
  refine ⟨?_, by decide, by decide⟩
  intro kvs hne hplain
  obtain ⟨kv0, rest, hkvs⟩ := List.exists_cons_of_ne_nil hne
  have hlast : (kvs.map entryText).getLast? = some (entryText (kvs.getLast hne)) := by
    rw [List.getLast?_eq_getLast _ (by simpa using hne), List.getLast_map]
  have hfirst : (kvs.map entryText).head? = some (entryText kv0) := by
    rw [hkvs]; rfl
  have h0 := hplain kv0 (by rw [hkvs]; exact List.mem_cons_self _ _)
  have hL := hplain (kvs.getLast hne) (List.getLast_mem hne)
  rw [UnmarshalJSON_lines (kvs.map entryText) _ _ hfirst hlast
    (by intro l hl
        obtain ⟨kv, hkv, rfl⟩ := List.mem_map.1 hl
        exact (entryText_props kv (hplain kv hkv).1 (hplain kv hkv).2).1)
    (by intro l hl
        obtain ⟨kv, hkv, rfl⟩ := List.mem_map.1 hl
        exact (entryText_props kv (hplain kv hkv).1 (hplain kv hkv).2).2.1)
    (entryText_props kv0 h0.1 h0.2).2.2.1
    (entryText_props _ hL.1 hL.2).2.2.2, List.map_map]
  congr 2
  apply List.map_congr_left
  intro kv hkv
  exact recordParam_entryText kv (hplain kv hkv).1 (hplain kv hkv).2

theorem UnmarshalJSON_entries_witness :
    UnmarshalJSON ('\x7b' :: List.intercalate recordSep
        ([(['k'], ['v', ' ', 'w']), (['$', 'x'], [])].map entryText) ++ ['\x7d'])
      = some ⟨[(['k'], ['v', ' ', 'w']), (['$', 'x'], ([] : Str))].map
          (fun kv => ⟨kv.1, kv.2⟩)⟩ :=
  UnmarshalJSON_entries.1 [(['k'], ['v', ' ', 'w']), (['$', 'x'], [])] (by decide) (by decide)

/-- C5. ParamBlock fault: parsing panics exactly when the trimmed content is non-empty and
some piece of it between comma CR LF separators has no colon; the block of the spec without
a colon panics. -/
theorem UnmarshalJSON_fault_iff :
    (∀ buf : Str, UnmarshalJSON buf = none ↔
      (blockContent buf ≠ [] ∧ ∃ line ∈ Split (blockContent buf) recordSep, ':' ∉ line)) ∧
    UnmarshalJSON "\x7b\"$a\" 1\x7d".toList = none := by
  refine ⟨?_, by decide⟩
  intro buf
  rw [UnmarshalJSON_eq]
  by_cases h0 : blockContent buf = []
  · simp [h0]
  · by_cases h1 : ∀ line ∈ Split (blockContent buf) recordSep, ':' ∈ line
    · rw [if_neg h0, if_pos h1]
      constructor
      · intro h; exact absurd h (by simp)
      · rintro ⟨_, l, hl, hc⟩; exact absurd (h1 l hl) hc
    · rw [if_neg h0, if_neg h1]
      push_neg at h1
      exact ⟨fun _ => ⟨h0, h1⟩, fun _ => rfl⟩

/-- C6. First-colon split: a record `K : V` with no colon in `K` never faults and contributes
the pair (trimmed `K`, trimmed `V`), however many colons `V` has; so in every successful parse
the pair at the position of such a record is that pair; the URL block of the spec parses to
its single pair. -/
theorem UnmarshalJSON_first_colon :
    (∀ (K V : Str) (lines : List Str) (data : List TemplateParam), ':' ∉ K →
      unmarshalLoop ((K ++ ':' :: V) :: lines) data
        = unmarshalLoop lines (data ++ [⟨trimPart K, trimPart V⟩])) ∧
    (∀ (buf : Str) (tp : TemplateParams) (i : Nat) (K V : Str),
      UnmarshalJSON buf = some tp → blockContent buf ≠ [] →
      (Split (blockContent buf) recordSep)[i]? = some (K ++ ':' :: V) → ':' ∉ K →
      tp.Data[i]? = some ⟨trimPart K, trimPart V⟩) ∧
    UnmarshalJSON "\x7b\"$url\": \"http://a:80/x\"\x7d".toList
      = some ⟨[⟨"$url".toList, "http://a:80/x".toList⟩]⟩ := by
  refine ⟨?_, ?_, by decide⟩
  · intro K V lines data hK
    rw [unmarshalLoop_cons_of_mem _ _ _ (by simp), recordParam_of_colon K V hK]
  · intro buf tp i K V h h0 hi hK
    rw [UnmarshalJSON_eq, if_neg h0] at h
    by_cases h1 : ∀ line ∈ Split (blockContent buf) recordSep, ':' ∈ line
    · rw [if_pos h1, Option.some.injEq] at h
      rw [← h]
      simp only [List.getElem?_map, hi, Option.map_some', recordParam_of_colon K V hK]
    · rw [if_neg h1] at h
      exact absurd h (by simp)

theorem UnmarshalJSON_first_colon_witness :
    UnmarshalJSON "\x7ba: b:c\x7d".toList = some ⟨[⟨['a'], ['b', ':', 'c']⟩]⟩ ∧
      (⟨[⟨['a'], ['b', ':', 'c']⟩]⟩ : TemplateParams).Data[0]?
        = some ⟨trimPart ['a'], trimPart [' ', 'b', ':', 'c']⟩ :=
  ⟨by decide, UnmarshalJSON_first_colon.2.1 "\x7ba: b:c\x7d".toList
    ⟨[⟨['a'], ['b', ':', 'c']⟩]⟩ 0 ['a'] [' ', 'b', ':', 'c'] (by decide) (by decide)
    (by decide) (by decide)⟩

/-- C7, counterexample. A block whose braces enclose a single blank holds no record, yet
parsing it panics: the blank is not trimmed, is taken as a record and has no colon. The same
happens for braces enclosing CR LF and two blanks. -/
theorem UnmarshalJSON_blank_block_faults :
    (∀ c ∈ " ".toList, isSpace c = true) ∧
      UnmarshalJSON "\x7b \x7d".toList = none ∧
      UnmarshalJSON "\x7b\r\n  \x7d".toList = none := by
  decide

/-- C7, amended. A block made of an opening brace, then only line terminators (CR, LF,
possibly none), then a closing brace, optionally surrounded by white space, parses to the
empty sequence. -/
theorem UnmarshalJSON_empty_block (ws1 nl ws2 : Str) (h1 : ∀ c ∈ ws1, isSpace c = true)
    (hnl : ∀ c ∈ nl, c = '\r' ∨ c = '\n') (h2 : ∀ c ∈ ws2, isSpace c = true) :
    UnmarshalJSON (ws1 ++ '\x7b' :: nl ++ '\x7d' :: ws2) = some ⟨[]⟩ := by
  have hts : TrimSpace (ws1 ++ '\x7b' :: nl ++ '\x7d' :: ws2) = '\x7b' :: nl ++ ['\x7d'] := by
    have := trim_wrap isSpace ws1 ('\x7b' :: nl ++ ['\x7d']) ws2 h1 h2
      (by intro c hc
          simp only [List.cons_append, List.head?_cons, Option.some.injEq] at hc
          subst hc; decide)
      (by intro c hc
          rw [List.getLast?_append_of_ne_nil _ (List.cons_ne_nil _ _)] at hc
          simp only [List.getLast?_singleton, Option.some.injEq] at hc
          subst hc; decide)
    simpa [TrimSpace] using this
  have hall : ∀ c ∈ '\x7b' :: nl ++ ['\x7d'], blockCutset.contains c = true := by
    intro c hc
    simp only [List.cons_append, List.mem_cons, List.mem_append, List.mem_singleton,
      List.not_mem_nil, or_false] at hc
    rcases hc with hc | hc | hc
    · subst hc; decide
    · rcases hnl c hc with h | h <;> subst h <;> decide
    · subst hc; decide
  have hbc : blockContent (ws1 ++ '\x7b' :: nl ++ '\x7d' :: ws2) = [] := by
    unfold blockContent Trim
    rw [hts, dropWhile_all _ _ hall]
    rfl
  rw [UnmarshalJSON_eq, if_pos hbc]

theorem UnmarshalJSON_empty_block_witness :
    UnmarshalJSON ([' ', '\n'] ++ '\x7b' :: ['\r', '\n', '\n'] ++ '\x7d' :: ['\t']) = some ⟨[]⟩ :=
  UnmarshalJSON_empty_block [' ', '\n'] ['\r', '\n', '\n'] ['\t'] (by decide) (by decide)
    (by decide)

/-- C8, counterexample. With a bare LF after the comma the two lines are not separated: the
block parses to a single parameter whose value holds the rest of the text. -/
theorem UnmarshalJSON_bare_lf_single_record :
    UnmarshalJSON "\x7b\"$a\": \"1\",\n\"$b\": \"2\"\x7d".toList
        = some ⟨[⟨"$a".toList, "1\",\n\"$b\": \"2".toList⟩]⟩ ∧
      UnmarshalJSON "\x7b\"$a\": \"1\",\n\"$b\": \"2\"\x7d".toList
        ≠ some ⟨[⟨"$a".toList, "1".toList⟩, ⟨"$b".toList, "2".toList⟩]⟩ := by
  decide

/-- C8, amended. A block written one entry per physical line, each line but the last followed
by a comma and CR LF, every line having a colon and no CR or LF, the first line not beginning
and the last line not ending with a brace, parses to one parameter per line, in line order:
the trimmed text before the first colon of the line and the trimmed text after it. -/
theorem UnmarshalJSON_crlf_lines (ls : List Str) (first last : Str)
    (hfirst : ls.head? = some first) (hlast : ls.getLast? = some last)
    (hline : ∀ l ∈ ls, ':' ∈ l ∧ '\r' ∉ l ∧ '\n' ∉ l)
    (hf : first.head? ≠ some '\x7b' ∧ first.head? ≠ some '\x7d')
    (hl : last.getLast? ≠ some '\x7b' ∧ last.getLast? ≠ some '\x7d') :
    UnmarshalJSON ('\x7b' :: List.intercalate recordSep ls ++ ['\x7d'])
        = some ⟨ls.map recordParam⟩ ∧
      (ls.map recordParam).length = ls.length := by
  refine ⟨?_, List.length_map _ _⟩
  have hne : ls ≠ [] := by
    intro h0; rw [h0] at hfirst; simp at hfirst
  have hfm : first ∈ ls := List.mem_of_mem_head? hfirst
  have hlm : last ∈ ls := List.mem_of_getLast?_eq_some hlast
  apply UnmarshalJSON_lines ls first last hfirst hlast (fun l h => (hline l h).1)
    (fun l h => (hline l h).2.1)
  · intro c hc
    have hm : c ∈ first := List.mem_of_mem_head? hc
    have h1 : c ≠ '\r' := fun h => (hline first hfm).2.1 (h ▸ hm)
    have h2 : c ≠ '\n' := fun h => (hline first hfm).2.2 (h ▸ hm)
    have h3 : c ≠ '\x7b' := fun h => hf.1 (h ▸ hc)
    have h4 : c ≠ '\x7d' := fun h => hf.2 (h ▸ hc)
    simp [blockCutset, h1, h2, h3, h4]
  · intro c hc
    have hm : c ∈ last := List.mem_of_getLast?_eq_some hc
    have h1 : c ≠ '\r' := fun h => (hline last hlm).2.1 (h ▸ hm)
    have h2 : c ≠ '\n' := fun h => (hline last hlm).2.2 (h ▸ hm)
    have h3 : c ≠ '\x7b' := fun h => hl.1 (h ▸ hc)
    have h4 : c ≠ '\x7d' := fun h => hl.2 (h ▸ hc)
    simp [blockCutset, h1, h2, h3, h4]

theorem UnmarshalJSON_crlf_lines_witness :
    UnmarshalJSON ('\x7b' :: List.intercalate recordSep
        ["a: 1, 2".toList, "\"b\" :\"x:y\"".toList, "c:".toList] ++ ['\x7d'])
        = some ⟨["a: 1, 2".toList, "\"b\" :\"x:y\"".toList, "c:".toList].map recordParam⟩ ∧
      (["a: 1, 2".toList, "\"b\" :\"x:y\"".toList, "c:".toList].map recordParam).length
        = ["a: 1, 2".toList, "\"b\" :\"x:y\"".toList, "c:".toList].length :=
  UnmarshalJSON_crlf_lines ["a: 1, 2".toList, "\"b\" :\"x:y\"".toList, "c:".toList]
    "a: 1, 2".toList "c:".toList (by decide) (by decide) (by decide) (by decide) (by decide)

/-! ## Substitution -/

theorem Cut_unmatched (sep s : Str) (h : ¬ sep <:+: s) : Cut sep s = none := by
  induction s with
  | nil =>
    rw [Cut_nil, if_neg]
    intro h0
    exact h (h0 ▸ List.infix_refl _)
  | cons c cs ih =>
    have h1 : sep.isPrefixOf (c :: cs) = false := by
      cases hp : sep.isPrefixOf (c :: cs) with
      | false => rfl
      | true => exact absurd (List.isPrefixOf_iff_prefix.1 hp).isInfix h
    have h2 : ¬ sep <:+: cs := fun hi => h (hi.trans (List.suffix_cons c cs).isInfix)
    rw [Cut_cons, h1, ih h2]
    rfl

theorem ReplaceAll_unmatched (s old new : Str) (h : ¬ old <:+: s) :
    ReplaceAll s old new = s := by
  unfold ReplaceAll
  by_cases h1 : old = new
  · rw [if_pos h1]
  · rw [if_neg h1]
    have h2 : old ≠ [] := fun h0 => h (h0 ▸ List.nil_infix)
    rw [if_neg h2]
    cases s.length with
    | zero => rfl
    | succ n => simp only [replaceLoop, Cut_unmatched old s h]

theorem substitute_unmatched (T : Str) (l : List TemplateParam)
    (h : ∀ p ∈ l, ¬ p.Key <:+: T) : substitute T l = T := by
  unfold substitute
  induction l with
  | nil => rfl
  | cons p l ih =>
    rw [List.foldl_cons, ReplaceAll_unmatched T p.Key p.Value (h p (List.mem_cons_self _ _))]
    exact ih (fun q hq => h q (List.mem_cons_of_mem _ hq))

theorem mem_of_mem_mergeParams (o : IterOrder) (e d : List TemplateParam) (p : TemplateParam)
    (h : p ∈ mergeParams o e d) : p ∈ e ++ d := by
  by_cases he : e = []
  · subst he
    rw [mergeParams_nil_left] at h
    simpa using h
  · by_cases hd : d = []
    · subst hd
      rw [mergeParams_nil_right] at h
      simpa using h
    · have := lastWithKey_some ((mem_mergeParams_iff o e d he hd p).1 h)
      have h2 := this.2
      rw [List.mem_append] at h2 ⊢
      exact h2.symm

/-- C9. Substitution leaves unmatched templates unchanged: when the template text `T` read
for the file contains no key of the explicit and default parameters as a substring (every key
being non-empty), `compileTemplate` returns `T`; and the template `<p>$name</p>` with the
single parameter `$name` to `Ann` and no defaults compiles to `<p>Ann</p>`. -/
theorem compileTemplate_unmatched :
    (∀ (fs : Str → Option Str) (o : IterOrder) (file : Str) (params defaults : List TemplateParam)
        (st st1 : State) (T : Str),
      readTemplateFile fs file st = some (T, st1) →
      (∀ p ∈ params ++ defaults, p.Key ≠ [] ∧ ¬ p.Key <:+: T) →
      compileTemplate fs o file params defaults st = some (T, st1)) ∧
    (∀ (o : IterOrder) (file : Str),
      (compileTemplate (fun _ => some "<p>$name</p>".toList) o file
        [⟨"$name".toList, "Ann".toList⟩] [] ⟨[], [], []⟩).map Prod.fst
        = some "<p>Ann</p>".toList) := by
  constructor
  · intro fs o file params defaults st st1 T hread hkeys
    unfold compileTemplate
    rw [hread]
    simp only
    rw [substitute_unmatched T _
      (fun p hp => (hkeys p (mem_of_mem_mergeParams o params defaults p hp)).2)]
  · intro o file
    simp only [compileTemplate, readTemplateFile, mapGet, mapSet, if_true, Option.getD_some,
      mergeParams_nil_right, Option.map_some', Option.some.injEq]
    decide

theorem compileTemplate_unmatched_witness :
    compileTemplate (fun _ => some "<p>$name</p>".toList) IterOrder.reversed "t.html".toList
        [⟨"$title".toList, "x".toList⟩] [⟨"$nam".toList ++ ['e', 's'], "y".toList⟩] ⟨[], [], []⟩
      = some ("<p>$name</p>".toList,
          ⟨[("t.html".toList, "<p>$name</p>".toList)], ["t.html".toList], []⟩) :=
  compileTemplate_unmatched.1 (fun _ => some "<p>$name</p>".toList) IterOrder.reversed
    "t.html".toList [⟨"$title".toList, "x".toList⟩] [⟨"$nam".toList ++ ['e', 's'], "y".toList⟩]
    ⟨[], [], []⟩ _ _ (by decide) (by decide)

/-! ## Template cache and page assembly -/

theorem readTemplateFile_of_text (fs : Str → Option Str) (f : Str) (st : State) (T : Str)
    (h : templateText fs st f = some T) :
    readTemplateFile fs f st = some (T, afterRead fs f st) := by
  unfold templateText at h
  unfold readTemplateFile afterRead
  cases hc : mapGet st.templatesCache f with
  | some v =>
    rw [hc] at h
    simp only [Option.some.injEq] at h
    simp only [h]
  | none =>
    rw [hc] at h
    simp only at h
    simp only [h, mapGet_mapSet, if_true, Option.getD_some]

theorem templateText_afterRead (fs : Str → Option Str) (f : Str) (st : State) (g : Str) :
    templateText fs (afterRead fs f st) g = templateText fs st g := by
  unfold afterRead
  cases hc : mapGet st.templatesCache f with
  | some v => rfl
  | none =>
    cases hf : fs f with
    | none => rfl
    | some content =>
      simp only [templateText, mapGet_mapSet]
      by_cases hfg : f = g
      · subst hfg
        simp only [if_true, hc, hf]
      · simp only [hfg, if_false]

theorem written_afterRead (fs : Str → Option Str) (f : Str) (st : State) :
    (afterRead fs f st).written = st.written := by
  unfold afterRead
  cases mapGet st.templatesCache f <;> cases fs f <;> rfl

theorem compileTemplate_of_text (fs : Str → Option Str) (o : IterOrder) (f : Str)
    (params defaults : List TemplateParam) (st : State) (T : Str)
    (h : templateText fs st f = some T) :
    compileTemplate fs o f params defaults st
      = some (substitute T (mergeParams o params defaults), afterRead fs f st) := by
  unfold compileTemplate
  rw [readTemplateFile_of_text fs f st T h]

/-- C10, counterexample. A configuration whose head slot has a template but no default
parameter set: for a page with all four parameter sets present and every template readable,
`buildPage` panics and no document is written. And under a complete configuration, a page
whose name the write collaborator cannot create (the id holds a path separator) makes
`buildPage` panic in `exportHTML`. -/
theorem buildPage_faults_without_head_defaults :
    (∀ f : Str, (fun _ : Str => some ([] : Str)) f ≠ none) ∧
      buildPage
        ⟨[], some ⟨"head.html".toList, none⟩, some ⟨"body.html".toList, some ⟨[]⟩⟩,
          some ⟨"header.html".toList, some ⟨[]⟩⟩, some ⟨"footer.html".toList, some ⟨[]⟩⟩, []⟩
        (fun _ => some []) (fun _ _ => true) 2026
        ⟨IterOrder.insertion, IterOrder.insertion, IterOrder.insertion, IterOrder.insertion,
          IterOrder.insertion⟩
        ⟨"index".toList, "index.html".toList, some ⟨[]⟩, some ⟨[]⟩, some ⟨[]⟩, some ⟨[]⟩⟩
        ⟨[], [], []⟩ = none ∧
      buildPage (sampleConfig [] []) sampleFiles sampleWriter 2026 sampleOrders
        ⟨"a/b".toList, "c".toList, some ⟨[]⟩, some ⟨[]⟩, some ⟨[]⟩, some ⟨[]⟩⟩
        emptyState = none := by
  refine ⟨?_, ?_, ?_⟩
  · intro f; simp
  · rfl
  · decide

/-- C10, amended. Page assembly shape: for a page whose four parameter sets are present,
under a configuration whose four slots are present, the head, body-header and body-footer
slots having a default parameter set, with the five templates readable and the write
collaborator accepting the document under the name page id plus `.html`, `buildPage` writes
under that name exactly the document `<!DOCTYPE html><html>` + H + B + `</html>`: H the head
template compiled with the head params over the head defaults, B the body template with
`$body_header`, then `$body_footer`, then `$body_content` replaced by the compiled header,
footer and content; the body slot's own default params play no part. -/
theorem buildPage_shape (fs : Str → Option Str) (wr : Str → Str → Bool) (year : Int)
    (os : Orders) (st : State)
    (pagesToBuild : List Str) (pages : List (Option Page))
    (headFile bodyFile headerFile footerFile : Str)
    (headDefaults headerDefaults footerDefaults : TemplateParams)
    (bodyDefaults : Option TemplateParams)
    (id contentFile : Str) (contentParams headParams headerParams footerParams : TemplateParams)
    (Thead Tbody Theader Tfooter Tcontent : Str)
    (h1 : templateText fs st headFile = some Thead)
    (h2 : templateText fs st contentFile = some Tcontent)
    (h3 : templateText fs st headerFile = some Theader)
    (h4 : templateText fs st footerFile = some Tfooter)
    (h5 : templateText fs st bodyFile = some Tbody)
    (doc : Str)
    (hdoc : doc = "<!DOCTYPE html><html>".toList
          ++ substitute Thead (mergeParams os.head headParams.Data headDefaults.Data)
          ++ ReplaceAll
              (ReplaceAll
                (ReplaceAll Tbody "$body_header".toList
                  (substitute Theader
                    (mergeParams os.header headerParams.Data headerDefaults.Data)))
                "$body_footer".toList
                (substitute Tfooter
                  (mergeParams os.footer (footerParams.Data ++ [⟨"$year".toList, Itoa year⟩])
                    footerDefaults.Data)))
              "$body_content".toList (substitute Tcontent contentParams.Data)
          ++ "</html>".toList)
    (hw : wr (id ++ ".html".toList) doc = true) :
    ∃ st1, buildPage
        ⟨pagesToBuild, some ⟨headFile, some headDefaults⟩, some ⟨bodyFile, bodyDefaults⟩,
          some ⟨headerFile, some headerDefaults⟩, some ⟨footerFile, some footerDefaults⟩, pages⟩
        fs wr year os
        ⟨id, contentFile, some contentParams, some headParams, some headerParams,
          some footerParams⟩ st = some st1 ∧
      st1.written = st.written ++ [(id ++ ".html".toList, doc)] := by
  have e2 : templateText fs (afterRead fs headFile st) contentFile = some Tcontent := by
    rw [templateText_afterRead]; exact h2
  have e3 : templateText fs (afterRead fs contentFile (afterRead fs headFile st)) headerFile
      = some Theader := by
    rw [templateText_afterRead, templateText_afterRead]; exact h3
  have e4 : templateText fs
      (afterRead fs headerFile (afterRead fs contentFile (afterRead fs headFile st))) footerFile
      = some Tfooter := by
    rw [templateText_afterRead, templateText_afterRead, templateText_afterRead]; exact h4
  have e5 : templateText fs
      (afterRead fs footerFile
        (afterRead fs headerFile (afterRead fs contentFile (afterRead fs headFile st)))) bodyFile
      = some Tbody := by
    rw [templateText_afterRead, templateText_afterRead, templateText_afterRead,
      templateText_afterRead]; exact h5
  subst hdoc
  simp only [buildPage, buildHead, buildHeader, buildFooter,
    compileTemplate_of_text fs _ _ _ _ _ _ h1, compileTemplate_of_text fs _ _ _ _ _ _ e2,
    compileTemplate_of_text fs _ _ _ _ _ _ e3, compileTemplate_of_text fs _ _ _ _ _ _ e4,
    compileTemplate_of_text fs _ _ _ _ _ _ e5, exportHTML, mergeParams_nil_right,
    mergeParams_nil_left, substitute, List.foldl_cons, List.foldl_nil] at hw ⊢
  rw [if_pos hw]
  exact ⟨_, rfl, by simp only [written_afterRead]⟩

theorem mergeParams_key_set_witness :
    (mergeParams IterOrder.reversed sampleExplicit sampleDefaults).Perm
        ((((sampleDefaults ++ sampleExplicit).map TemplateParam.Key).dedup).filterMap
          (lastWithKey (sampleDefaults ++ sampleExplicit))) ∧
      (mergeParams IterOrder.reversed sampleExplicit sampleDefaults).length
        = (((sampleDefaults ++ sampleExplicit).map TemplateParam.Key).dedup).length :=
  ⟨(mergeParams_key_set IterOrder.reversed sampleExplicit sampleDefaults
      (by decide) (by decide)).1,
    (mergeParams_key_set IterOrder.reversed sampleExplicit sampleDefaults
      (by decide) (by decide)).2.1⟩

theorem buildPage_shape_witness :
    ∃ st1, buildPage
        ⟨[], some ⟨['h'], some ⟨[⟨['$', 't'], ['T']⟩]⟩⟩, some ⟨['b'], none⟩,
          some ⟨['t'], some ⟨[]⟩⟩, some ⟨['f'], some ⟨[]⟩⟩, []⟩
        (fun f => if f = ['b'] then some "$body_header|$body_content|$body_footer".toList
          else some ('$' :: 't' :: f)) sampleWriter 2026
        ⟨IterOrder.reversed, IterOrder.insertion, IterOrder.insertion, IterOrder.reversed,
          IterOrder.insertion⟩
        ⟨['i'], ['c'], some ⟨[⟨['$', 't'], ['C']⟩]⟩, some ⟨[]⟩, some ⟨[]⟩, some ⟨[]⟩⟩
        ⟨[], [], []⟩ = some st1 ∧
      st1.written = (⟨[], [], []⟩ : State).written ++ [(['i'] ++ ".html".toList,
        "<!DOCTYPE html><html>Th$tt|Cc|$tf</html>".toList)] :=
  buildPage_shape
    (fun f => if f = ['b'] then some "$body_header|$body_content|$body_footer".toList
      else some ('$' :: 't' :: f)) sampleWriter 2026
    ⟨IterOrder.reversed, IterOrder.insertion, IterOrder.insertion, IterOrder.reversed,
      IterOrder.insertion⟩ ⟨[], [], []⟩ [] [] ['h'] ['b'] ['t'] ['f'] ⟨[⟨['$', 't'], ['T']⟩]⟩
    ⟨[]⟩ ⟨[]⟩ none ['i'] ['c'] ⟨[⟨['$', 't'], ['C']⟩]⟩ ⟨[]⟩ ⟨[]⟩ ⟨[]⟩
    ['$', 't', 'h'] "$body_header|$body_content|$body_footer".toList ['$', 't', 't']
    ['$', 't', 'f'] ['$', 't', 'c'] (by decide) (by decide) (by decide) (by decide) (by decide)
    "<!DOCTYPE html><html>Th$tt|Cc|$tf</html>".toList (by decide) (by decide)

/-! ## Optional parameter sets of a page -/

/-- C11, the code at the failing input. Head and content parameters present, header parameters
present, footer parameters absent, all four slots and templates present and readable:
`buildPage` panics, because line 134 tests `page.HeaderParams` before it dereferences
`page.FooterParams`. -/
theorem buildPage_faults_header_without_footer :
    buildPage (sampleConfig [] []) sampleFiles sampleWriter 2026 sampleOrders
      ⟨"p".toList, "c".toList, some ⟨[]⟩, some ⟨[]⟩, some ⟨[]⟩, none⟩ emptyState = none := by
  rfl

/-- C12, the code at the failing input. Footer parameters `$x` to `y` present, header
parameters absent: the footer is compiled without the page's footer parameters, so the token
`$x` of the footer template is left as it is in the written document; the same page with
header parameters present gets `y` there. -/
theorem buildPage_ignores_footer_without_header :
    (buildPage (sampleConfig [] []) sampleFiles sampleWriter 2026 sampleOrders
      ⟨"p".toList, "c".toList, some ⟨[]⟩, some ⟨[]⟩, none,
        some ⟨[⟨"$x".toList, "y".toList⟩]⟩⟩ emptyState).map (fun st => st.written)
      = some [("p.html".toList, "<!DOCTYPE html><html>headheader|c|$x 2026</html>".toList)] ∧
    (buildPage (sampleConfig [] []) sampleFiles sampleWriter 2026 sampleOrders
      ⟨"p".toList, "c".toList, some ⟨[]⟩, some ⟨[]⟩, some ⟨[]⟩,
        some ⟨[⟨"$x".toList, "y".toList⟩]⟩⟩ emptyState).map (fun st => st.written)
      = some [("p.html".toList, "<!DOCTYPE html><html>headheader|c|y 2026</html>".toList)] := by
  decide

/-- C16. Absent head or content params is a fault: when the head parameter set or the content
parameter set of the page is absent, `buildPage` panics; `exportHTML` stands after both
dereferences, so nothing is handed to the write collaborator. -/
theorem buildPage_faults_without_head_or_content (cfg : Configuration) (fs : Str → Option Str)
    (wr : Str → Str → Bool) (year : Int) (os : Orders) (page : Page) (st : State)
    (h : page.HeadParams = none ∨ page.ContentParams = none) :
    buildPage cfg fs wr year os page st = none := by
  unfold buildPage
  rcases h with h | h
  · simp only [h]
  · cases h1 : page.HeadParams with
    | none => rfl
    | some hp =>
      simp only [h]
      cases buildHead cfg fs os.head hp.Data st with
      | none => rfl
      | some r => rfl

theorem buildPage_faults_without_head_or_content_witness :
    buildPage (sampleConfig [] []) sampleFiles sampleWriter 2026 sampleOrders
      ⟨"p".toList, "c".toList, none, some ⟨[]⟩, some ⟨[]⟩, some ⟨[]⟩⟩ emptyState = none :=
  buildPage_faults_without_head_or_content (sampleConfig [] []) sampleFiles sampleWriter 2026 sampleOrders
    ⟨"p".toList, "c".toList, none, some ⟨[]⟩, some ⟨[]⟩, some ⟨[]⟩⟩ emptyState
    (Or.inr rfl)

/-! ## Sequential substitution and the footer year -/

theorem substitute_append (T : Str) (a b : List TemplateParam) :
    substitute T (a ++ b) = substitute (substitute T a) b := by
  unfold substitute
  rw [List.foldl_append]

theorem substitute_cons (T : Str) (p : TemplateParam) (l : List TemplateParam) :
    substitute T (p :: l) = substitute (ReplaceAll T p.Key p.Value) l := rfl

/-- Parameters whose keys do not occur before the one match, nor after it, change nothing. -/
theorem substitute_around (T : Str) (yp : TemplateParam) (l1 l2 : List TemplateParam)
    (h1 : ∀ p ∈ l1, ¬ p.Key <:+: T)
    (h2 : ∀ p ∈ l2, ¬ p.Key <:+: ReplaceAll T yp.Key yp.Value) :
    substitute T (l1 ++ yp :: l2) = ReplaceAll T yp.Key yp.Value := by
  rw [substitute_append, substitute_unmatched T l1 h1, substitute_cons,
    substitute_unmatched _ l2 h2]

theorem lastWithKey_concat (l : List TemplateParam) (p : TemplateParam) :
    lastWithKey (l ++ [p]) p.Key = some p := by
  rw [lastWithKey_append]
  have : lastWithKey [p] p.Key = some p := by
    simp [lastWithKey]
  rw [this]

theorem yearParam_mem_mergeParams (o : IterOrder) (params defaults : List TemplateParam)
    (yp : TemplateParam) : yp ∈ mergeParams o (params ++ [yp]) defaults := by
  by_cases hd : defaults = []
  · subst hd
    rw [mergeParams_nil_right]
    simp
  · rw [mem_mergeParams_iff o _ _ (by simp) hd, lastWithKey_append, lastWithKey_concat]

/-- A merged list around one of its entries: the other entries have other keys. -/
theorem mergeParams_split (o : IterOrder) (e d : List TemplateParam) (he : e ≠ [])
    (hd : d ≠ []) (yp : TemplateParam) (hy : yp ∈ mergeParams o e d) :
    ∃ l1 l2, mergeParams o e d = l1 ++ yp :: l2 ∧
      ∀ p, p ∈ l1 ∨ p ∈ l2 → p.Key ≠ yp.Key ∧ p ∈ e ++ d := by
  obtain ⟨l1, l2, hsplit⟩ := List.append_of_mem hy
  refine ⟨l1, l2, hsplit, ?_⟩
  have hnd := nodup_mergeParams_keys o e d he hd
  rw [hsplit, List.map_append, List.map_cons] at hnd
  have hnd2 := List.nodup_middle.1 hnd
  rw [List.nodup_cons, List.mem_append] at hnd2
  intro p hp
  constructor
  · intro hk
    apply hnd2.1
    rcases hp with hp | hp
    · exact Or.inl (hk ▸ List.mem_map_of_mem TemplateParam.Key hp)
    · exact Or.inr (hk ▸ List.mem_map_of_mem TemplateParam.Key hp)
  · apply mem_of_mem_mergeParams o e d p
    rw [hsplit]
    rcases hp with hp | hp
    · exact List.mem_append_left _ hp
    · exact List.mem_append_right _ (List.mem_cons_of_mem _ hp)

theorem buildFooter_eq (cfg : Configuration) (fs : Str → Option Str) (year : Int)
    (o : IterOrder) (params defaults : List TemplateParam) (file : Str) (st : State) (T : Str)
    (hcfg : cfg.BodyFooter = some ⟨file, some ⟨defaults⟩⟩)
    (hT : templateText fs st file = some T) :
    buildFooter cfg fs year o params st
      = some (substitute T (mergeParams o (params ++ [yearParam year]) defaults),
          afterRead fs file st) := by
  unfold buildFooter
  simp only [hcfg]
  exact compileTemplate_of_text fs o file _ _ st T hT

theorem ReplaceAll_self (old new : Str) (h : old ≠ []) : ReplaceAll old old new = new := by
  unfold ReplaceAll
  by_cases h1 : old = new
  · rw [if_pos h1]; exact h1
  · rw [if_neg h1, if_neg h]
    obtain ⟨c, cs, rfl⟩ := List.exists_cons_of_ne_nil h
    have hc : Cut (c :: cs) (c :: cs) = some ([], []) := by
      rw [Cut_cons]
      simp
    simp only [List.length_cons, replaceLoop, hc]
    cases cs.length with
    | zero => simp [replaceLoop]
    | succ n => simp [replaceLoop, Cut_nil]

/-- C18. Sequential substitution: with empty defaults `compileTemplate` returns the left fold,
over the explicit parameters in list order, of replacing every occurrence of the key by the
value, starting from the template text; symmetrically over the defaults when explicit is
empty; so text inserted by an earlier parameter is rewritten by a later one: `$a` with `$a` to
`$b`, then `$b` to `x`, compiles to `x`. -/
theorem compileTemplate_sequential :
    (∀ (fs : Str → Option Str) (o : IterOrder) (file : Str) (explicit : List TemplateParam)
        (st : State) (T : Str), templateText fs st file = some T →
      compileTemplate fs o file explicit [] st
        = some (explicit.foldl (fun c par => ReplaceAll c par.Key par.Value) T,
            afterRead fs file st)) ∧
    (∀ (fs : Str → Option Str) (o : IterOrder) (file : Str) (defaults : List TemplateParam)
        (st : State) (T : Str), templateText fs st file = some T →
      compileTemplate fs o file [] defaults st
        = some (defaults.foldl (fun c par => ReplaceAll c par.Key par.Value) T,
            afterRead fs file st)) ∧
    (∀ (o : IterOrder) (file : Str),
      (compileTemplate (fun _ => some "$a".toList) o file
        [⟨"$a".toList, "$b".toList⟩, ⟨"$b".toList, "x".toList⟩] [] emptyState).map Prod.fst
        = some "x".toList) := by
  refine ⟨?_, ?_, ?_⟩
  · intro fs o file explicit st T hT
    rw [compileTemplate_of_text fs o file explicit [] st T hT, mergeParams_nil_right]
    rfl
  · intro fs o file defaults st T hT
    rw [compileTemplate_of_text fs o file [] defaults st T hT, mergeParams_nil_left]
    rfl
  · intro o file
    rw [compileTemplate_of_text (fun _ => some "$a".toList) o file _ [] emptyState
      "$a".toList rfl, mergeParams_nil_right]
    simp only [Option.map_some']
    decide

theorem compileTemplate_sequential_witness :
    compileTemplate sampleFiles IterOrder.reversed "footer".toList
        [⟨"$x".toList, "$year".toList⟩, ⟨"$year".toList, "y".toList⟩] [] emptyState
      = some (([⟨"$x".toList, "$year".toList⟩, ⟨"$year".toList, "y".toList⟩] :
          List TemplateParam).foldl (fun c par => ReplaceAll c par.Key par.Value)
            "$x $year".toList,
          afterRead sampleFiles "footer".toList emptyState) :=
  compileTemplate_sequential.1 sampleFiles IterOrder.reversed "footer".toList
    [⟨"$x".toList, "$year".toList⟩, ⟨"$year".toList, "y".toList⟩] emptyState
    "$x $year".toList (by decide)

/-- C13, counterexample. No explicit footer parameters and no `$year` among the defaults, whose
only key is `ye`: with the defaults visited first the template `$year` is rendered as
`$YEar`, not as the year. -/
theorem buildFooter_year_not_rendered :
    (buildFooter
      ⟨[], none, none, none, some ⟨"footer".toList, some ⟨[⟨"ye".toList, "YE".toList⟩]⟩⟩, []⟩
      (fun _ => some "$year".toList) 2026 IterOrder.insertion [] emptyState).map Prod.fst
      = some "$YEar".toList := by
  decide

/-- C20, counterexample. Template `$year`. With empty defaults and explicit footer parameters
that define `$year` as `1999`, `buildFooter` returns `1999`: the list is used as it is and the
earlier entry is substituted first. With defaults holding the key `$y` and those visited
first, it returns `Year`. -/
theorem buildFooter_year_loses :
    (buildFooter ⟨[], none, none, none, some ⟨"footer".toList, some ⟨[]⟩⟩, []⟩
        (fun _ => some "$year".toList) 2026 IterOrder.insertion
        [⟨"$year".toList, "1999".toList⟩] emptyState).map Prod.fst = some "1999".toList ∧
    (buildFooter
        ⟨[], none, none, none, some ⟨"footer".toList, some ⟨[⟨"$y".toList, "Y".toList⟩]⟩⟩, []⟩
        (fun _ => some "$year".toList) 2026 IterOrder.insertion [] emptyState).map Prod.fst
      = some "Year".toList := by
  decide

/-- C20, amended. Computed year in the rendered footer, template text `$year`. With non-empty
defaults: for every explicit footer parameter sequence and defaults, also ones that define
`$year` with another value, if no key other than `$year` occurs in `$year` or in the decimal
year, `buildFooter` returns the decimal year. With empty defaults: the same when no explicit
key occurs in `$year`. -/
theorem buildFooter_year_wins (cfg : Configuration) (fs : Str → Option Str) (year : Int)
    (o : IterOrder) (params defaults : List TemplateParam) (file : Str) (st : State)
    (hcfg : cfg.BodyFooter = some ⟨file, some ⟨defaults⟩⟩)
    (hT : templateText fs st file = some "$year".toList) :
    (defaults ≠ [] →
      (∀ p ∈ params ++ defaults, p.Key ≠ "$year".toList →
        ¬ p.Key <:+: "$year".toList ∧ ¬ p.Key <:+: Itoa year) →
      buildFooter cfg fs year o params st = some (Itoa year, afterRead fs file st)) ∧
    (defaults = [] →
      (∀ p ∈ params, ¬ p.Key <:+: "$year".toList) →
      buildFooter cfg fs year o params st = some (Itoa year, afterRead fs file st)) := by
  have hself : ReplaceAll "$year".toList (yearParam year).Key (yearParam year).Value
      = Itoa year := ReplaceAll_self "$year".toList (Itoa year) (by decide)
  constructor
  · intro hd hkeys
    rw [buildFooter_eq cfg fs year o params defaults file st _ hcfg hT]
    congr 2
    obtain ⟨l1, l2, hsplit, hrest⟩ := mergeParams_split o (params ++ [yearParam year]) defaults
      (by simp) hd (yearParam year) (yearParam_mem_mergeParams o params defaults _)
    have hcond : ∀ p, p ∈ l1 ∨ p ∈ l2 →
        ¬ p.Key <:+: "$year".toList ∧ ¬ p.Key <:+: Itoa year := by
      intro p hp
      have h1 := hrest p hp
      apply hkeys p _ h1.1
      have h2 := h1.2
      simp only [List.mem_append, List.mem_singleton] at h2 ⊢
      rcases h2 with (h2 | h2) | h2
      · exact Or.inl h2
      · exact absurd (by rw [h2]) h1.1
      · exact Or.inr h2
    rw [hsplit, substitute_around "$year".toList (yearParam year) l1 l2
      (fun p hp => (hcond p (Or.inl hp)).1)
      (fun p hp => by rw [hself]; exact (hcond p (Or.inr hp)).2)]
    exact hself
  · intro hd hkeys
    subst hd
    rw [buildFooter_eq cfg fs year o params [] file st _ hcfg hT, mergeParams_nil_right]
    congr 2
    rw [substitute_around "$year".toList (yearParam year) params [] hkeys
      (fun p hp => absurd hp (List.not_mem_nil _))]
    exact hself

theorem buildFooter_year_wins_witness :
    buildFooter
        ⟨[], none, none, none,
          some ⟨"footer".toList, some ⟨[⟨"$year".toList, "1999".toList⟩]⟩⟩, []⟩
        (fun _ => some "$year".toList) 2026 IterOrder.reversed
        [⟨"$year".toList, "1998".toList⟩, ⟨"$z".toList, "Z".toList⟩] emptyState
      = some (Itoa 2026, afterRead (fun _ => some "$year".toList) "footer".toList emptyState) :=
  (buildFooter_year_wins
    ⟨[], none, none, none, some ⟨"footer".toList, some ⟨[⟨"$year".toList, "1999".toList⟩]⟩⟩, []⟩
    (fun _ => some "$year".toList) 2026 IterOrder.reversed
    [⟨"$year".toList, "1998".toList⟩, ⟨"$z".toList, "Z".toList⟩]
    [⟨"$year".toList, "1999".toList⟩] "footer".toList emptyState rfl rfl).1
    (by decide) (by decide)

/-! ## Trimmed parts -/

theorem head_dropWhile (p : Char → Bool) (l : Str) (c : Char)
    (h : (l.dropWhile p).head? = some c) : p c = false := by
  induction l with
  | nil => simp at h
  | cons x xs ih =>
    cases hx : p x with
    | true =>
      rw [List.dropWhile_cons_of_pos hx] at h
      exact ih h
    | false =>
      rw [List.dropWhile_cons_of_neg (by simp [hx])] at h
      simp only [List.head?_cons, Option.some.injEq] at h
      rw [← h]; exact hx

theorem getLast_rdropWhile (p : Char → Bool) (l : Str) (c : Char)
    (h : (l.rdropWhile p).getLast? = some c) : p c = false := by
  unfold List.rdropWhile at h
  rw [List.getLast?_reverse] at h
  exact head_dropWhile p l.reverse c h

theorem head_rdropWhile (p : Char → Bool) (l : Str) (c : Char)
    (h : (l.rdropWhile p).head? = some c) : l.head? = some c := by
  obtain ⟨t, ht⟩ := List.rdropWhile_prefix p l
  cases hr : l.rdropWhile p with
  | nil => rw [hr] at h; simp at h
  | cons x xs =>
    rw [hr] at h ht
    rw [← ht]
    simpa using h

/-- The ends of a trimmed text are outside the cutset. -/
theorem Trim_ends (s cutset : Str) (c : Char)
    (h : (Trim s cutset).head? = some c ∨ (Trim s cutset).getLast? = some c) :
    cutset.contains c = false := by
  unfold Trim at h
  rcases h with h | h
  · exact head_dropWhile (fun c => cutset.contains c) s c (head_rdropWhile _ _ c h)
  · exact getLast_rdropWhile (fun c => cutset.contains c) _ c h

theorem trimPart_ends (part : Str) (c : Char)
    (h : (trimPart part).head? = some c ∨ (trimPart part).getLast? = some c) :
    c ≠ '\x22' ∧ c ≠ '\r' ∧ c ≠ '\n' := by
  have := Trim_ends (TrimSpace part) partCutset c h
  simpa [partCutset] using this

/-- C19, counterexample. White space inside the quotes is kept: the block parses, its key
begins with a blank and its value ends with a blank. -/
theorem UnmarshalJSON_keeps_inner_blank :
    UnmarshalJSON "\x7b\" a\": \"1 \"\x7d".toList
        = some ⟨[⟨" a".toList, "1 ".toList⟩]⟩ ∧
      " a".toList.head? = some ' ' ∧ "1 ".toList.getLast? = some ' ' ∧ isSpace ' ' = true := by
  decide

/-- C19, amended. Trimmed parts: for every params block that parses successfully, no key and
no value of the resulting sequence begins or ends with a double quote, a CR or an LF. -/
theorem UnmarshalJSON_trimmed_parts (buf : Str) (tp : TemplateParams)
    (h : UnmarshalJSON buf = some tp) :
    ∀ p ∈ tp.Data, ∀ c,
      (p.Key.head? = some c ∨ p.Key.getLast? = some c ∨
        p.Value.head? = some c ∨ p.Value.getLast? = some c) →
      c ≠ '\x22' ∧ c ≠ '\r' ∧ c ≠ '\n' := by
  intro p hp c hc
  rw [UnmarshalJSON_eq] at h
  by_cases h0 : blockContent buf = []
  · rw [if_pos h0, Option.some.injEq] at h
    rw [← h] at hp
    exact absurd hp (List.not_mem_nil _)
  · rw [if_neg h0] at h
    by_cases h1 : ∀ line ∈ Split (blockContent buf) recordSep, ':' ∈ line
    · rw [if_pos h1, Option.some.injEq] at h
      rw [← h] at hp
      obtain ⟨line, _, rfl⟩ := List.mem_map.1 hp
      rcases hc with hc | hc | hc | hc
      · exact trimPart_ends _ c (Or.inl hc)
      · exact trimPart_ends _ c (Or.inr hc)
      · exact trimPart_ends _ c (Or.inl hc)
      · exact trimPart_ends _ c (Or.inr hc)
    · rw [if_neg h1] at h
      exact absurd h (by simp)

theorem UnmarshalJSON_trimmed_parts_witness :
    UnmarshalJSON "\x7b\" a\": \"1 \"\x7d".toList = some ⟨[⟨" a".toList, "1 ".toList⟩]⟩ ∧
      ('a' ≠ '\x22' ∧ 'a' ≠ '\r' ∧ 'a' ≠ '\n') :=
  ⟨by decide,
    UnmarshalJSON_trimmed_parts "\x7b\" a\": \"1 \"\x7d".toList
      ⟨[⟨" a".toList, "1 ".toList⟩]⟩ (by decide) ⟨" a".toList, "1 ".toList⟩ (by decide) 'a'
      (Or.inr (Or.inl (by decide)))⟩

/-! ## Template cache -/

theorem readTemplateFile_cached (fs : Str → Option Str) (f : Str) (st : State) (content : Str)
    (h : mapGet st.templatesCache f = some content) :
    readTemplateFile fs f st = some (content, st) := by
  unfold readTemplateFile
  rw [h]

theorem readTemplateFile_uncached (fs : Str → Option Str) (f : Str) (st : State)
    (content : Str) (h : mapGet st.templatesCache f = none) (hf : fs f = some content) :
    readTemplateFile fs f st
      = some (content, { st with templatesCache := mapSet st.templatesCache f content,
                                 reads := st.reads ++ [f] }) := by
  unfold readTemplateFile
  simp only [h, hf, mapGet_mapSet, if_true, Option.getD_some]

/-- What one `readTemplateFile` does to the state. -/
theorem readTemplateFile_cases (fs : Str → Option Str) (f : Str) (st st1 : State) (v : Str)
    (h : readTemplateFile fs f st = some (v, st1)) :
    (mapGet st.templatesCache f = some v ∧ st1 = st) ∨
      (mapGet st.templatesCache f = none ∧ fs f = some v ∧
        st1 = { st with templatesCache := mapSet st.templatesCache f v,
                        reads := st.reads ++ [f] }) := by
  cases hc : mapGet st.templatesCache f with
  | some w =>
    rw [readTemplateFile_cached fs f st w hc] at h
    simp only [Option.some.injEq, Prod.mk.injEq] at h
    exact Or.inl ⟨by rw [h.1], h.2.symm⟩
  | none =>
    cases hf : fs f with
    | none =>
      unfold readTemplateFile at h
      simp only [hc, hf] at h
      exact absurd h (by simp)
    | some content =>
      rw [readTemplateFile_uncached fs f st content hc hf] at h
      simp only [Option.some.injEq, Prod.mk.injEq] at h
      obtain ⟨h1, h2⟩ := h
      subst h1
      exact Or.inr ⟨rfl, rfl, h2.symm⟩

theorem readTemplateFile_keeps (fs : Str → Option Str) (g : Str) (st st1 : State) (v : Str)
    (h : readTemplateFile fs g st = some (v, st1)) (f content : Str)
    (hf : mapGet st.templatesCache f = some content) :
    mapGet st1.templatesCache f = some content := by
  rcases readTemplateFile_cases fs g st st1 v h with ⟨_, h1⟩ | ⟨hc, _, h1⟩
  · rw [h1]; exact hf
  · rw [h1]
    simp only [mapGet_mapSet]
    by_cases hgf : g = f
    · rw [hgf, hf] at hc
      exact absurd hc (by simp)
    · rw [if_neg hgf]; exact hf

theorem readMany_reads (reqs : List ((Str → Option Str) × Str)) (st : State) (outs : List Str)
    (st1 : State) (h : readMany reqs st = some (outs, st1)) :
    ∃ new, st1.reads = st.reads ++ new ∧ new.Nodup ∧
      ∀ f ∈ new, mapGet st.templatesCache f = none ∧ f ∈ reqs.map Prod.snd := by
  induction reqs generalizing st outs st1 with
  | nil =>
    simp only [readMany, Option.some.injEq, Prod.mk.injEq] at h
    exact ⟨[], by rw [← h.2]; simp, List.nodup_nil, fun f hf => absurd hf (List.not_mem_nil _)⟩
  | cons r rest ih =>
    obtain ⟨fs, g⟩ := r
    unfold readMany at h
    cases hr : readTemplateFile fs g st with
    | none => rw [hr] at h; exact absurd h (by simp)
    | some r1 =>
      obtain ⟨v, st2⟩ := r1
      rw [hr] at h
      simp only at h
      cases hm : readMany rest st2 with
      | none => rw [hm] at h; exact absurd h (by simp)
      | some r2 =>
        obtain ⟨vs, st3⟩ := r2
        rw [hm] at h
        simp only [Option.some.injEq, Prod.mk.injEq] at h
        obtain ⟨new, hnew, hnd, hmem⟩ := ih st2 vs st3 hm
        rw [← h.2]
        rcases readTemplateFile_cases fs g st st2 v hr with ⟨_, h1⟩ | ⟨hc, _, h1⟩
        · rw [h1] at hnew hmem
          exact ⟨new, hnew, hnd, fun f hf =>
            ⟨(hmem f hf).1, List.mem_cons_of_mem _ (hmem f hf).2⟩⟩
        · refine ⟨g :: new, ?_, ?_, ?_⟩
          · rw [hnew, h1]; simp
          · rw [List.nodup_cons]
            refine ⟨fun hg => ?_, hnd⟩
            have := (hmem g hg).1
            rw [h1] at this
            simp only [mapGet_mapSet, if_true] at this
            exact absurd this (by simp)
          · intro f hf
            rcases List.mem_cons.1 hf with hf | hf
            · subst hf
              exact ⟨hc, by simp⟩
            · have := hmem f hf
              refine ⟨?_, List.mem_cons_of_mem _ this.2⟩
              have h2 := this.1
              rw [h1] at h2
              simp only [mapGet_mapSet] at h2
              by_cases hgf : g = f
              · rw [if_pos hgf] at h2; exact absurd h2 (by simp)
              · rw [if_neg hgf] at h2; exact h2

/-- C15. Cache effect: a first successful `readTemplateFile` of an uncached `f` performs
exactly one underlying read and stores the content under `f`; a read of a cached `f` performs
no underlying read, returns the stored content whatever the file system holds by then, and
leaves the state unchanged; a cached entry survives every other read; hence in any sequence of
requests the underlying reads are of pairwise distinct filenames, none of them cached at the
start. -/
theorem readTemplateFile_cache_effect :
    (∀ (fs : Str → Option Str) (f : Str) (st : State) (content : Str),
      mapGet st.templatesCache f = none → fs f = some content →
      ∃ st1, readTemplateFile fs f st = some (content, st1) ∧
        st1.reads = st.reads ++ [f] ∧ mapGet st1.templatesCache f = some content) ∧
    (∀ (fs : Str → Option Str) (f : Str) (st : State) (content : Str),
      mapGet st.templatesCache f = some content →
      readTemplateFile fs f st = some (content, st)) ∧
    (∀ (fs : Str → Option Str) (g : Str) (st st1 : State) (v f content : Str),
      readTemplateFile fs g st = some (v, st1) →
      mapGet st.templatesCache f = some content →
      mapGet st1.templatesCache f = some content) ∧
    (∀ (reqs : List ((Str → Option Str) × Str)) (st st1 : State) (outs : List Str),
      readMany reqs st = some (outs, st1) →
      ∃ new, st1.reads = st.reads ++ new ∧ new.Nodup ∧
        ∀ f ∈ new, mapGet st.templatesCache f = none ∧ f ∈ reqs.map Prod.snd) := by
  refine ⟨?_, readTemplateFile_cached, ?_, ?_⟩
  · intro fs f st content hc hf
    refine ⟨_, readTemplateFile_uncached fs f st content hc hf, rfl, ?_⟩
    simp only [mapGet_mapSet, if_true]
  · intro fs g st st1 v f content h hf
    exact readTemplateFile_keeps fs g st st1 v h f content hf
  · intro reqs st st1 outs h
    exact readMany_reads reqs st outs st1 h

theorem readTemplateFile_cache_effect_witness :
    ∃ new, (⟨[("a".toList, "A".toList), ("b".toList, "B".toList)],
          ["a".toList, "b".toList], []⟩ : State).reads = emptyState.reads ++ new ∧
        new.Nodup ∧
        ∀ f ∈ new, mapGet emptyState.templatesCache f = none ∧
          f ∈ ([((fun _ => some "A".toList), "a".toList), ((fun _ => some "B".toList), "b".toList),
            ((fun _ => some "C".toList), "a".toList)] :
              List ((Str → Option Str) × Str)).map Prod.snd :=
  readTemplateFile_cache_effect.2.2.2
    [((fun _ => some "A".toList), "a".toList), ((fun _ => some "B".toList), "b".toList),
      ((fun _ => some "C".toList), "a".toList)] emptyState
    ⟨[("a".toList, "A".toList), ("b".toList, "B".toList)], ["a".toList, "b".toList], []⟩
    ["A".toList, "B".toList, "A".toList] (by decide)

/-! ## Build driver -/

theorem compileTemplate_written (fs : Str → Option Str) (o : IterOrder) (f : Str)
    (params defaults : List TemplateParam) (st st1 : State) (x : Str)
    (h : compileTemplate fs o f params defaults st = some (x, st1)) :
    st1.written = st.written := by
  unfold compileTemplate at h
  cases hr : readTemplateFile fs f st with
  | none => rw [hr] at h; exact absurd h (by simp)
  | some r =>
    obtain ⟨v, st2⟩ := r
    rw [hr] at h
    simp only [Option.some.injEq, Prod.mk.injEq] at h
    rw [← h.2]
    rcases readTemplateFile_cases fs f st st2 v hr with ⟨_, h1⟩ | ⟨_, _, h1⟩ <;> rw [h1]

theorem buildHead_written (cfg : Configuration) (fs : Str → Option Str) (o : IterOrder)
    (params : List TemplateParam) (st st1 : State) (x : Str)
    (h : buildHead cfg fs o params st = some (x, st1)) : st1.written = st.written := by
  unfold buildHead at h
  split at h
  · exact absurd h (by simp)
  · split at h
    · exact absurd h (by simp)
    · exact compileTemplate_written _ _ _ _ _ _ _ _ h

theorem buildHeader_written (cfg : Configuration) (fs : Str → Option Str) (o : IterOrder)
    (params : List TemplateParam) (st st1 : State) (x : Str)
    (h : buildHeader cfg fs o params st = some (x, st1)) : st1.written = st.written := by
  unfold buildHeader at h
  split at h
  · exact absurd h (by simp)
  · split at h
    · exact absurd h (by simp)
    · exact compileTemplate_written _ _ _ _ _ _ _ _ h

theorem buildFooter_written (cfg : Configuration) (fs : Str → Option Str) (year : Int)
    (o : IterOrder) (params : List TemplateParam) (st st1 : State) (x : Str)
    (h : buildFooter cfg fs year o params st = some (x, st1)) : st1.written = st.written := by
  unfold buildFooter at h
  simp only at h
  split at h
  · exact absurd h (by simp)
  · split at h
    · exact absurd h (by simp)
    · exact compileTemplate_written _ _ _ _ _ _ _ _ h

/-- A successful `buildPage` hands exactly one document to the write collaborator, under the
name of the page. -/
theorem buildPage_written (cfg : Configuration) (fs : Str → Option Str)
    (wr : Str → Str → Bool) (year : Int)
    (os : Orders) (page : Page) (st st1 : State)
    (h : buildPage cfg fs wr year os page st = some st1) :
    ∃ doc, st1.written = st.written ++ [(page.Id ++ ".html".toList, doc)] := by
  unfold buildPage at h
  simp only at h
  split at h
  · exact absurd h (by simp)
  · split at h
    · exact absurd h (by simp)
    · rename_i hA
      split at h
      · exact absurd h (by simp)
      · split at h
        · exact absurd h (by simp)
        · rename_i hB
          split at h
          · exact absurd h (by simp)
          · rename_i hC
            split at h
            · exact absurd h (by simp)
            · split at h
              · exact absurd h (by simp)
              · rename_i hD
                split at h
                · exact absurd h (by simp)
                · split at h
                  · exact absurd h (by simp)
                  · rename_i hE
                    unfold exportHTML at h
                    split at h
                    · simp only [Option.some.injEq] at h
                      rw [← h]
                      apply Exists.intro
                      simp only
                      rw [compileTemplate_written _ _ _ _ _ _ _ _ hE,
                        buildFooter_written _ _ _ _ _ _ _ _ hD,
                        buildHeader_written _ _ _ _ _ _ _ hC,
                        compileTemplate_written _ _ _ _ _ _ _ _ hB,
                        buildHead_written _ _ _ _ _ _ _ hA]
                    · exact absurd h (by simp)

theorem indexOfPage_of_find (pages : List Page) (pageId : Str) :
    match pages.find? (fun p => decide (p.Id = pageId)) with
    | none => indexOfPage (pages.map some) pageId = some none
    | some p => ∃ idx, indexOfPage (pages.map some) pageId = some (some idx) ∧
        (pages.map some)[idx]? = some (some p) := by
  induction pages with
  | nil => rfl
  | cons q rest ih =>
    by_cases hq : q.Id = pageId
    · rw [List.find?_cons_of_pos _ (by simpa using hq)]
      exact ⟨0, by simp [indexOfPage, hq], by simp⟩
    · rw [List.find?_cons_of_neg _ (by simpa using hq)]
      cases hf : rest.find? (fun p => decide (p.Id = pageId)) with
      | none =>
        rw [hf] at ih
        simp only at ih ⊢
        simp only [List.map_cons, indexOfPage, hq, if_false, ih]
      | some p =>
        rw [hf] at ih
        simp only at ih ⊢
        obtain ⟨idx, h1, h2⟩ := ih
        refine ⟨idx + 1, ?_, ?_⟩
        · simp only [List.map_cons, indexOfPage, hq, if_false, h1]
        · simpa using h2

theorem mainLoop_cons (cfg : Configuration) (fs : Str → Option Str)
    (wr : Str → Str → Bool) (year : Int)
    (os : Nat → Orders) (pages : List Page) (h : cfg.Pages = pages.map some)
    (pageId : Str) (rest : List Str) (k : Nat) (st : State) :
    mainLoop cfg fs wr year os (pageId :: rest) k st =
      match pages.find? (fun p => decide (p.Id = pageId)) with
      | none => mainLoop cfg fs wr year os rest k st
      | some p =>
        match buildPage cfg fs wr year (os k) p st with
        | none => none
        | some st1 => mainLoop cfg fs wr year os rest (k + 1) st1 := by
  have hi := indexOfPage_of_find pages pageId
  cases hf : pages.find? (fun p => decide (p.Id = pageId)) with
  | none =>
    rw [hf] at hi
    simp only at hi ⊢
    simp only [mainLoop, h, hi]
  | some p =>
    rw [hf] at hi
    simp only at hi ⊢
    obtain ⟨idx, h1, h2⟩ := hi
    simp only [mainLoop, h, h1, h2]

theorem mainLoop_eq_buildAll (cfg : Configuration) (fs : Str → Option Str)
    (wr : Str → Str → Bool) (year : Int)
    (os : Nat → Orders) (pages : List Page) (h : cfg.Pages = pages.map some)
    (ids : List Str) (k : Nat) (st : State) :
    mainLoop cfg fs wr year os ids k st
      = buildAll cfg fs wr year os (selectedPages ids pages) k st := by
  induction ids generalizing k st with
  | nil => rfl
  | cons pageId rest ih =>
    rw [mainLoop_cons cfg fs wr year os pages h]
    cases hf : pages.find? (fun p => decide (p.Id = pageId)) with
    | none =>
      simp only [selectedPages, List.filterMap_cons, hf]
      exact ih k st
    | some p =>
      simp only [selectedPages, List.filterMap_cons, hf, buildAll]
      cases buildPage cfg fs wr year (os k) p st with
      | none => rfl
      | some st1 => exact ih (k + 1) st1

theorem buildAll_written (cfg : Configuration) (fs : Str → Option Str)
    (wr : Str → Str → Bool) (year : Int)
    (os : Nat → Orders) (ps : List Page) (k : Nat) (st st1 : State)
    (h : buildAll cfg fs wr year os ps k st = some st1) :
    st1.written.map Prod.fst
      = st.written.map Prod.fst ++ ps.map (fun p => p.Id ++ ".html".toList) := by
  induction ps generalizing k st with
  | nil =>
    simp only [buildAll, Option.some.injEq] at h
    rw [h]; simp
  | cons p rest ih =>
    unfold buildAll at h
    cases hb : buildPage cfg fs wr year (os k) p st with
    | none => rw [hb] at h; exact absurd h (by simp)
    | some st2 =>
      rw [hb] at h
      obtain ⟨doc, hdoc⟩ := buildPage_written cfg fs wr year (os k) p st st2 hb
      rw [ih (k + 1) st2 h, hdoc]
      simp

/-- C14, counterexample. A page list with a null entry after the page `a`, build list `x`,
`a`: the lookup of the unmatched `x` dereferences the null entry and panics, so `a` is not
built; without the null entry the same build list builds `a`. -/
theorem main_faults_on_null_page :
    main (sampleConfig ["x".toList, "a".toList]
        [some ⟨"a".toList, "c0".toList, some ⟨[]⟩, some ⟨[]⟩, some ⟨[]⟩, some ⟨[]⟩⟩, none])
      sampleFiles sampleWriter 2026 (fun _ => sampleOrders) emptyState = none ∧
    (main (sampleConfig ["x".toList, "a".toList]
        [some ⟨"a".toList, "c0".toList, some ⟨[]⟩, some ⟨[]⟩, some ⟨[]⟩, some ⟨[]⟩⟩])
      sampleFiles sampleWriter 2026 (fun _ => sampleOrders) emptyState).map
        (fun st => st.written.map Prod.fst) = some ["a.html".toList] := by
  decide

/-- C14, amended. Unknown build id is skipped: for every build list and every page list
without null entries the driver builds, in build-list order, the first page whose id equals
each identifier, an identifier without a page being skipped without any effect: `main` is the
run of `buildPage` over exactly that sequence of pages, and when the run completes the names
handed to the write collaborator are those of that sequence, one per occurrence of a matching
identifier. -/
theorem main_builds_selected (cfg : Configuration) (fs : Str → Option Str)
    (wr : Str → Str → Bool) (year : Int)
    (os : Nat → Orders) (st : State) (pages : List Page) (h : cfg.Pages = pages.map some) :
    main cfg fs wr year os st
        = buildAll cfg fs wr year os (selectedPages cfg.PagesToBuild pages) 0 st ∧
      ∀ st1, main cfg fs wr year os st = some st1 →
        st1.written.map Prod.fst = st.written.map Prod.fst ++
          (selectedPages cfg.PagesToBuild pages).map (fun p => p.Id ++ ".html".toList) := by
  have h1 : main cfg fs wr year os st
      = buildAll cfg fs wr year os (selectedPages cfg.PagesToBuild pages) 0 st :=
    mainLoop_eq_buildAll cfg fs wr year os pages h cfg.PagesToBuild 0 st
  refine ⟨h1, ?_⟩
  intro st1 hst
  rw [h1] at hst
  exact buildAll_written cfg fs wr year os _ 0 st st1 hst

theorem main_builds_selected_witness :
    main (sampleConfig ["x".toList, "b".toList, "y".toList, "a".toList, "b".toList]
        (samplePages.map some)) sampleFiles sampleWriter 2026 (fun _ => sampleOrders) emptyState
      = buildAll (sampleConfig ["x".toList, "b".toList, "y".toList, "a".toList, "b".toList]
          (samplePages.map some)) sampleFiles sampleWriter 2026 (fun _ => sampleOrders)
          (selectedPages ["x".toList, "b".toList, "y".toList, "a".toList, "b".toList]
            samplePages) 0 emptyState ∧
      selectedPages ["x".toList, "b".toList, "y".toList, "a".toList, "b".toList] samplePages
        = [⟨"b".toList, "c1".toList, some ⟨[]⟩, some ⟨[]⟩, some ⟨[]⟩, some ⟨[]⟩⟩,
            ⟨"a".toList, "c0".toList, some ⟨[]⟩, some ⟨[]⟩, some ⟨[]⟩, some ⟨[]⟩⟩,
            ⟨"b".toList, "c1".toList, some ⟨[]⟩, some ⟨[]⟩, some ⟨[]⟩, some ⟨[]⟩⟩] :=
  ⟨(main_builds_selected (sampleConfig ["x".toList, "b".toList, "y".toList, "a".toList,
      "b".toList] (samplePages.map some)) sampleFiles sampleWriter 2026 (fun _ => sampleOrders) emptyState
      samplePages rfl).1, by decide⟩

/-! ## Order of the substitutions -/

theorem Cut_some_eq (old : Str) (T b a : Str) (h : Cut old T = some (b, a)) :
    T = b ++ old ++ a := by
  induction T generalizing b with
  | nil =>
    rw [Cut_nil] at h
    by_cases h0 : old = []
    · rw [if_pos h0] at h
      simp only [Option.some.injEq, Prod.mk.injEq] at h
      rw [← h.1, ← h.2, h0]; rfl
    · rw [if_neg h0] at h
      exact absurd h (by simp)
  | cons c cs ih =>
    rw [Cut_cons] at h
    by_cases hp : old.isPrefixOf (c :: cs) = true
    · rw [if_pos hp] at h
      simp only [Option.some.injEq, Prod.mk.injEq] at h
      obtain ⟨t, ht⟩ := List.isPrefixOf_iff_prefix.1 hp
      rw [← h.1, ← h.2, ← ht, List.drop_left]
      rfl
    · rw [if_neg hp] at h
      cases hc : Cut old cs with
      | none => rw [hc] at h; exact absurd h (by simp)
      | some r =>
        obtain ⟨b1, a1⟩ := r
        rw [hc] at h
        simp only [Option.some.injEq, Prod.mk.injEq] at h
        obtain ⟨h1, h2⟩ := h
        subst h1 h2
        rw [ih b1 hc]
        simp

theorem replaceLoop_fuel (old new : Str) (hold : old ≠ []) (T : Str) (n : Nat)
    (hn : T.length ≤ n) : replaceLoop old new n T = replaceLoop old new T.length T := by
  induction n using Nat.strong_induction_on generalizing T with
  | _ n ih =>
    cases n with
    | zero =>
      have : T.length = 0 := by omega
      rw [this]
    | succ n =>
      cases hT : T.length with
      | zero =>
        have hnil : T = [] := List.length_eq_zero.1 hT
        subst hnil
        simp only [replaceLoop, Cut_nil, if_neg hold]
      | succ m =>
        simp only [replaceLoop]
        cases hc : Cut old T with
        | none => rfl
        | some r =>
          obtain ⟨b, a⟩ := r
          simp only
          have hlen : a.length < T.length := by
            have h1 := congrArg List.length (Cut_some_eq old T b a hc)
            have h2 : 0 < old.length := List.length_pos.2 hold
            simp only [List.length_append] at h1
            omega
          rw [ih n (Nat.lt_succ_self n) a (by omega), ih m (by omega) a (by omega)]

/-- One round of `ReplaceAll` for a non-empty `old` different from `new`. -/
theorem ReplaceAll_step (old new : Str) (hold : old ≠ []) (hne : old ≠ new) (T : Str) :
    ReplaceAll T old new =
      match Cut old T with
      | none => T
      | some (b, a) => b ++ new ++ ReplaceAll a old new := by
  unfold ReplaceAll
  rw [if_neg hne, if_neg hold]
  cases hT : T.length with
  | zero =>
    have hnil : T = [] := List.length_eq_zero.1 hT
    subst hnil
    simp only [replaceLoop, Cut_nil, if_neg hold]
  | succ m =>
    simp only [replaceLoop]
    cases hc : Cut old T with
    | none => rfl
    | some r =>
      obtain ⟨b, a⟩ := r
      simp only
      have hlen : a.length < T.length := by
        have h1 := congrArg List.length (Cut_some_eq old T b a hc)
        have h2 : 0 < old.length := List.length_pos.2 hold
        simp only [List.length_append] at h1
        omega
      rw [replaceLoop_fuel old new hold a m (by omega), if_neg hne, if_neg hold]

theorem Cut_append_free (s : Char) (body a t : Str) (ha : s ∉ a) :
    Cut (s :: body) (a ++ t) =
      match Cut (s :: body) t with
      | none => none
      | some (b, r) => some (a ++ b, r) := by
  induction a with
  | nil =>
    rw [List.nil_append]
    cases Cut (s :: body) t with
    | none => rfl
    | some r => rfl
  | cons x xs ih =>
    rw [List.mem_cons, not_or] at ha
    have hp : (s :: body).isPrefixOf (x :: (xs ++ t)) = false := by
      simp [List.isPrefixOf, ha.1]
    rw [List.cons_append, Cut_cons, hp, ih ha.2]
    cases Cut (s :: body) t with
    | none => rfl
    | some r => rfl

theorem Cut_key_append (key t : Str) (hkey : key ≠ []) :
    Cut key (key ++ t) = some ([], t) := by
  obtain ⟨c, cs, rfl⟩ := List.exists_cons_of_ne_nil hkey
  have hp : (c :: cs).isPrefixOf (c :: cs ++ t) = true :=
    List.isPrefixOf_iff_prefix.2 (List.prefix_append _ _)
  rw [List.cons_append, Cut_cons, ← List.cons_append, hp, if_pos rfl, List.drop_left]

theorem Cut_sigil_miss (s : Char) (body t : Str) (h : ¬ body <+: t) :
    Cut (s :: body) (s :: t) =
      match Cut (s :: body) t with
      | none => none
      | some (b, r) => some (s :: b, r) := by
  have hp : (s :: body).isPrefixOf (s :: t) = false := by
    cases hb : (s :: body).isPrefixOf (s :: t) with
    | false => rfl
    | true =>
      have := List.isPrefixOf_iff_prefix.1 hb
      exact absurd ((List.cons_prefix_cons.1 this).2) h
  rw [Cut_cons, hp]
  cases Cut (s :: body) t with
  | none => rfl
  | some r => rfl

/-- Replacement passes over text without the sigil. -/
theorem ReplaceAll_free (s : Char) (body v a t : Str) (hv : s ∉ v) (ha : s ∉ a) :
    ReplaceAll (a ++ t) (s :: body) v = a ++ ReplaceAll t (s :: body) v := by
  have hne : s :: body ≠ v := fun h => hv (h ▸ List.mem_cons_self _ _)
  rw [ReplaceAll_step _ _ (List.cons_ne_nil _ _) hne (a ++ t),
    ReplaceAll_step _ _ (List.cons_ne_nil _ _) hne t, Cut_append_free s body a t ha]
  cases Cut (s :: body) t with
  | none => rfl
  | some r => simp

/-- Replacement at an occurrence of the key. -/
theorem ReplaceAll_key (s : Char) (body v t : Str) (hv : s ∉ v) :
    ReplaceAll ((s :: body) ++ t) (s :: body) v = v ++ ReplaceAll t (s :: body) v := by
  have hne : s :: body ≠ v := fun h => hv (h ▸ List.mem_cons_self _ _)
  rw [ReplaceAll_step _ _ (List.cons_ne_nil _ _) hne ((s :: body) ++ t),
    Cut_key_append _ t (List.cons_ne_nil _ _)]
  rfl

/-- Replacement passes over a sigil that does not start the key. -/
theorem ReplaceAll_miss (s : Char) (body v t : Str) (hv : s ∉ v) (h : ¬ body <+: t) :
    ReplaceAll (s :: t) (s :: body) v = s :: ReplaceAll t (s :: body) v := by
  have hne : s :: body ≠ v := fun h => hv (h ▸ List.mem_cons_self _ _)
  rw [ReplaceAll_step _ _ (List.cons_ne_nil _ _) hne (s :: t),
    ReplaceAll_step _ _ (List.cons_ne_nil _ _) hne t, Cut_sigil_miss s body t h]
  cases Cut (s :: body) t with
  | none => rfl
  | some r => simp

theorem key_eq_sigil_tail (s : Char) (k : Str)
    (h : k.head? = some s ∧ s ∉ k.tail) : ∃ body, k = s :: body ∧ s ∉ body := by
  cases k with
  | nil => simp at h
  | cons c cs =>
    simp only [List.head?_cons, Option.some.injEq, List.tail_cons] at h
    exact ⟨cs, by rw [h.1], h.2⟩

theorem ReplaceAll_nil (old new : Str) (hold : old ≠ []) (hne : old ≠ new) :
    ReplaceAll [] old new = [] := by
  rw [ReplaceAll_step old new hold hne, Cut_nil, if_neg hold]

theorem ReplaceAll_free_key (s : Char) (k v a t : Str)
    (hk : k.head? = some s ∧ s ∉ k.tail) (hv : s ∉ v) (ha : s ∉ a) :
    ReplaceAll (a ++ t) k v = a ++ ReplaceAll t k v := by
  obtain ⟨body, rfl, _⟩ := key_eq_sigil_tail s k hk
  exact ReplaceAll_free s body v a t hv ha

theorem ReplaceAll_at_key (s : Char) (k v t : Str)
    (hk : k.head? = some s ∧ s ∉ k.tail) (hv : s ∉ v) :
    ReplaceAll (k ++ t) k v = v ++ ReplaceAll t k v := by
  obtain ⟨body, rfl, _⟩ := key_eq_sigil_tail s k hk
  exact ReplaceAll_key s body v t hv

theorem ReplaceAll_other_key (s : Char) (k v q t : Str)
    (hk : k.head? = some s ∧ s ∉ k.tail) (hv : s ∉ v)
    (hq : q.head? = some s ∧ s ∉ q.tail) (h1 : ¬ k <+: q) (h2 : ¬ q <+: k) :
    ReplaceAll (q ++ t) k v = q ++ ReplaceAll t k v := by
  obtain ⟨bk, rfl, _⟩ := key_eq_sigil_tail s k hk
  obtain ⟨bq, rfl, hbq⟩ := key_eq_sigil_tail s q hq
  have hmiss : ¬ bk <+: bq ++ t := by
    intro hp
    rcases List.prefix_or_prefix_of_prefix hp (List.prefix_append bq t) with h | h
    · exact h1 (List.cons_prefix_cons.2 ⟨rfl, h⟩)
    · exact h2 (List.cons_prefix_cons.2 ⟨rfl, h⟩)
  rw [List.cons_append, ReplaceAll_miss s bk v (bq ++ t) hv hmiss,
    ReplaceAll_free s bk v bq t hv hbq]
  rfl

/-- One replacement on a tokenised text marks its parameter as done. -/
theorem ReplaceAll_renderTokens (s : Char) (L : List TemplateParam)
    (hkey : ∀ p ∈ L, p.Key.head? = some s ∧ s ∉ p.Key.tail)
    (hval : ∀ p ∈ L, s ∉ p.Value)
    (hpre : ∀ p ∈ L, ∀ q ∈ L, p.Key <+: q.Key → p = q)
    (x : TemplateParam) (hx : x ∈ L) (done : List TemplateParam)
    (toks : List (TemplateParam × Str)) (htoks : ∀ t ∈ toks, t.1 ∈ L ∧ s ∉ t.2) :
    ReplaceAll (renderTokens done toks) x.Key x.Value = renderTokens (x :: done) toks := by
  have hxk := hkey x hx
  have hxv : s ∉ x.Value := hval x hx
  induction toks with
  | nil =>
    obtain ⟨body, hb, _⟩ := key_eq_sigil_tail s x.Key hxk
    exact ReplaceAll_nil _ _ (by rw [hb]; exact List.cons_ne_nil _ _)
      (fun h => hxv (by rw [← h, hb]; exact List.mem_cons_self _ _))
  | cons t ts ih =>
    have ht := htoks t (List.mem_cons_self _ _)
    have ih' := ih (fun u hu => htoks u (List.mem_cons_of_mem _ hu))
    simp only [renderTokens, List.append_assoc]
    by_cases hd : t.1 ∈ done
    · have hd' : t.1 ∈ x :: done := List.mem_cons_of_mem _ hd
      rw [if_pos hd, if_pos hd', ReplaceAll_free_key s _ _ t.1.Value _ hxk hxv (hval t.1 ht.1),
        ReplaceAll_free_key s _ _ t.2 _ hxk hxv ht.2, ih']
    · rw [if_neg hd]
      by_cases htx : t.1 = x
      · have hd' : t.1 ∈ x :: done := htx ▸ List.mem_cons_self _ _
        rw [if_pos hd', htx, ReplaceAll_at_key s _ _ _ hxk hxv,
          ReplaceAll_free_key s _ _ t.2 _ hxk hxv ht.2, ih']
      · have hd' : t.1 ∉ x :: done := by
          intro hm
          rcases List.mem_cons.1 hm with hm | hm
          · exact htx hm
          · exact hd hm
        rw [if_neg hd', ReplaceAll_other_key s _ _ t.1.Key _ hxk hxv (hkey t.1 ht.1)
            (fun h => htx (hpre x hx t.1 ht.1 h).symm) (fun h => htx (hpre t.1 ht.1 x hx h)),
          ReplaceAll_free_key s _ _ t.2 _ hxk hxv ht.2, ih']

theorem substitute_renderTokens (s : Char) (L : List TemplateParam)
    (hkey : ∀ p ∈ L, p.Key.head? = some s ∧ s ∉ p.Key.tail)
    (hval : ∀ p ∈ L, s ∉ p.Value)
    (hpre : ∀ p ∈ L, ∀ q ∈ L, p.Key <+: q.Key → p = q)
    (pre : Str) (hp : s ∉ pre)
    (toks : List (TemplateParam × Str)) (htoks : ∀ t ∈ toks, t.1 ∈ L ∧ s ∉ t.2)
    (l : List TemplateParam) (hl : ∀ x ∈ l, x ∈ L) (done : List TemplateParam) :
    substitute (pre ++ renderTokens done toks) l
      = pre ++ renderTokens (l.reverse ++ done) toks := by
  induction l generalizing done with
  | nil => rfl
  | cons x l ih =>
    have hx := hl x (List.mem_cons_self _ _)
    rw [substitute_cons, ReplaceAll_free_key s _ _ pre _ (hkey x hx) (hval x hx) hp,
      ReplaceAll_renderTokens s L hkey hval hpre x hx done toks htoks,
      ih (fun y hy => hl y (List.mem_cons_of_mem _ hy)) (x :: done)]
    simp

theorem renderTokens_congr (d1 d2 : List TemplateParam) (h : ∀ p, p ∈ d1 ↔ p ∈ d2)
    (toks : List (TemplateParam × Str)) : renderTokens d1 toks = renderTokens d2 toks := by
  induction toks with
  | nil => rfl
  | cons t ts ih =>
    simp only [renderTokens, ih]
    by_cases hd : t.1 ∈ d1
    · rw [if_pos hd, if_pos ((h t.1).1 hd)]
    · rw [if_neg hd, if_neg (fun hm => hd ((h t.1).2 hm))]

/-- A template in which every sigil starts a key is a text of tokens. -/
theorem exists_tokens (s : Char) (L : List TemplateParam)
    (hkey : ∀ p ∈ L, p.Key.head? = some s ∧ s ∉ p.Key.tail) (n : Nat) :
    ∀ T : Str, T.length ≤ n →
      (∀ w ∈ T.tails, w.head? = some s → ∃ p ∈ L, p.Key <+: w) →
      ∃ pre toks, T = pre ++ renderTokens [] toks ∧ s ∉ pre ∧
        ∀ t ∈ toks, t.1 ∈ L ∧ s ∉ t.2 := by
  induction n with
  | zero =>
    intro T hlen _
    have : T = [] := List.length_eq_zero.1 (Nat.le_zero.1 hlen)
    subst this
    exact ⟨[], [], rfl, List.not_mem_nil _, fun t ht => absurd ht (List.not_mem_nil _)⟩
  | succ n ih =>
    intro T hlen hT
    cases T with
    | nil => exact ⟨[], [], rfl, List.not_mem_nil _, fun t ht => absurd ht (List.not_mem_nil _)⟩
    | cons c cs =>
      by_cases hc : c = s
      · subst hc
        obtain ⟨p, hpL, hpk⟩ := hT (c :: cs) (by simp) rfl
        obtain ⟨w, hw⟩ := hpk
        have hlen' : w.length ≤ n := by
          have h1 := congrArg List.length hw
          obtain ⟨body, hb, _⟩ := key_eq_sigil_tail c p.Key (hkey p hpL)
          rw [hb] at h1
          simp only [List.length_append, List.length_cons] at h1 hlen
          omega
        have hTw : ∀ u ∈ w.tails, u.head? = some c → ∃ q ∈ L, q.Key <+: u := by
          intro u hu
          apply hT u
          rw [List.mem_tails] at hu ⊢
          exact hu.trans (hw ▸ List.suffix_append _ _)
        obtain ⟨pre, toks, h1, h2, h3⟩ := ih w hlen' hTw
        refine ⟨[], (p, pre) :: toks, ?_, List.not_mem_nil _, ?_⟩
        · simp only [renderTokens, List.not_mem_nil, if_false, List.nil_append]
          rw [← hw, h1, List.append_assoc]
        · intro t ht
          rcases List.mem_cons.1 ht with ht | ht
          · subst ht; exact ⟨hpL, h2⟩
          · exact h3 t ht
      · have hlen' : cs.length ≤ n := by
          simp only [List.length_cons] at hlen; omega
        have hTw : ∀ u ∈ cs.tails, u.head? = some s → ∃ q ∈ L, q.Key <+: u := by
          intro u hu
          apply hT u
          rw [List.mem_tails] at hu ⊢
          exact hu.trans (List.suffix_cons c cs)
        obtain ⟨pre, toks, h1, h2, h3⟩ := ih cs hlen' hTw
        refine ⟨c :: pre, toks, by rw [h1]; rfl, ?_, h3⟩
        intro hm
        rcases List.mem_cons.1 hm with hm | hm
        · exact hc hm.symm
        · exact h2 hm

/-- Under the sigil conditions the result of the sequential substitution depends only on which
parameters are applied, not on their order. -/
theorem substitute_perm (s : Char) (T : Str) (l : List TemplateParam)
    (hkey : ∀ p ∈ l, p.Key.head? = some s ∧ s ∉ p.Key.tail)
    (hval : ∀ p ∈ l, s ∉ p.Value)
    (hpre : ∀ p ∈ l, ∀ q ∈ l, p.Key <+: q.Key → p = q)
    (hT : ∀ w ∈ T.tails, w.head? = some s → ∃ p ∈ l, p.Key <+: w)
    (l1 : List TemplateParam) (hperm : l1.Perm l) :
    substitute T l1 = substitute T l := by
  obtain ⟨pre, toks, h1, h2, h3⟩ := exists_tokens s l hkey T.length T (Nat.le_refl _) hT
  rw [h1, substitute_renderTokens s l hkey hval hpre pre h2 toks h3 l1
      (fun x hx => hperm.subset hx) [],
    substitute_renderTokens s l hkey hval hpre pre h2 toks h3 l (fun x hx => hx) []]
  congr 1
  apply renderTokens_congr
  intro p
  simp only [List.append_nil, List.mem_reverse]
  exact hperm.mem_iff

theorem mergeParams_perm (o1 o2 : IterOrder) (e d : List TemplateParam) :
    (mergeParams o1 e d).Perm (mergeParams o2 e d) := by
  by_cases he : e = []
  · subst he
    rw [mergeParams_nil_left, mergeParams_nil_left]
  · by_cases hd : d = []
    · subst hd
      rw [mergeParams_nil_right, mergeParams_nil_right]
    · rw [mergeParams_eq o1 e d he hd, mergeParams_eq o2 e d he hd]
      exact ((o1.perm _).map Prod.snd).trans ((o2.perm _).map Prod.snd).symm

/-- C17, counterexample. Two parameters with distinct keys, the value of the first holding the
key of the second: the template `$a` becomes `x` in one order and `$b` in the other; and
`compileTemplate` with explicit `$a` to `$b` over the default `$b` to `x` returns `$b` when the
map is visited in insertion order and `x` when it is visited in the reverse order. -/
theorem substitute_order_matters :
    ([⟨"$a".toList, "$b".toList⟩, ⟨"$b".toList, "x".toList⟩].map TemplateParam.Key).Nodup ∧
    substitute "$a".toList [⟨"$a".toList, "$b".toList⟩, ⟨"$b".toList, "x".toList⟩]
      = "x".toList ∧
    substitute "$a".toList [⟨"$b".toList, "x".toList⟩, ⟨"$a".toList, "$b".toList⟩]
      = "$b".toList ∧
    (compileTemplate (fun _ => some "$a".toList) IterOrder.insertion "t".toList
      [⟨"$a".toList, "$b".toList⟩] [⟨"$b".toList, "x".toList⟩] emptyState).map Prod.fst
      = some "$b".toList ∧
    (compileTemplate (fun _ => some "$a".toList) IterOrder.reversed "t".toList
      [⟨"$a".toList, "$b".toList⟩] [⟨"$b".toList, "x".toList⟩] emptyState).map Prod.fst
      = some "x".toList := by
  decide

/-- C17, amended. Substitution is order-independent for sigil tokens: when every key of the
effective parameter set starts with one sigil character that occurs nowhere else in the keys
and in no value, no key is a prefix of another key, and every sigil in the template text starts
an occurrence of a key, applying the sequential replacements in any two orders of the set
yields the same text; so for such a merged set the result of `compileTemplate` does not
depend on the iteration order of the merge map. -/
theorem substitute_order_independent (s : Char) (T : Str) (l : List TemplateParam)
    (hkey : ∀ p ∈ l, p.Key.head? = some s ∧ s ∉ p.Key.tail)
    (hval : ∀ p ∈ l, s ∉ p.Value)
    (hpre : ∀ p ∈ l, ∀ q ∈ l, p.Key <+: q.Key → p = q)
    (hT : ∀ w ∈ T.tails, w.head? = some s → ∃ p ∈ l, p.Key <+: w) :
    (∀ l1 l2 : List TemplateParam, l1.Perm l → l2.Perm l →
      substitute T l1 = substitute T l2) ∧
    (∀ (fs : Str → Option Str) (o1 o2 : IterOrder) (file : Str)
        (explicit defaults : List TemplateParam) (st : State),
      templateText fs st file = some T → l = mergeParams o1 explicit defaults →
      compileTemplate fs o1 file explicit defaults st
        = compileTemplate fs o2 file explicit defaults st) := by
  constructor
  · intro l1 l2 h1 h2
    rw [substitute_perm s T l hkey hval hpre hT l1 h1,
      substitute_perm s T l hkey hval hpre hT l2 h2]
  · intro fs o1 o2 file explicit defaults st hfile hl
    rw [compileTemplate_of_text fs o1 file explicit defaults st T hfile,
      compileTemplate_of_text fs o2 file explicit defaults st T hfile]
    congr 2
    rw [← hl]
    exact (substitute_perm s T l hkey hval hpre hT _
      (hl ▸ mergeParams_perm o2 o1 explicit defaults)).symm

theorem substitute_order_independent_witness :
    substitute "<$a|$bc|$a>".toList
        [⟨"$a".toList, "x".toList⟩, ⟨"$bc".toList, "y".toList⟩]
      = substitute "<$a|$bc|$a>".toList
        [⟨"$bc".toList, "y".toList⟩, ⟨"$a".toList, "x".toList⟩] :=
  (substitute_order_independent '$' "<$a|$bc|$a>".toList
    [⟨"$a".toList, "x".toList⟩, ⟨"$bc".toList, "y".toList⟩]
    (by decide) (by decide) (by decide) (by decide)).1
    [⟨"$a".toList, "x".toList⟩, ⟨"$bc".toList, "y".toList⟩]
    [⟨"$bc".toList, "y".toList⟩, ⟨"$a".toList, "x".toList⟩]
    (List.Perm.refl _) (List.Perm.swap _ _ _)

/-! ## The footer year among the defaults -/

/-- C13, amended. Footer year injection: for every explicit footer parameter sequence and every
body-footer default sequence, `buildFooter` substitutes with the merge of the explicit
parameters followed by the year parameter over the defaults, and that effective set contains
the entry `$year` with the decimal year. With no explicit footer parameters every `$year` of
the footer template is rendered as the year in two cases. First, when no default key occurs
in the footer template or in the rendered text: the result is the template with every `$year`
replaced by the year. Second, when the effective set is a set of sigil tokens (every key
starts with `$`, which occurs nowhere else in the keys and in no value, no key is a prefix of
another key, every `$` of the template starts a key): the result is the one obtained by
replacing every `$year` of the template by the year first and applying the other effective
parameters afterwards, whatever the iteration order. -/
theorem buildFooter_year_injected (cfg : Configuration) (fs : Str → Option Str) (year : Int)
    (o : IterOrder) (params defaults : List TemplateParam) (file : Str) (st : State) (T : Str)
    (hcfg : cfg.BodyFooter = some ⟨file, some ⟨defaults⟩⟩)
    (hT : templateText fs st file = some T) :
    (buildFooter cfg fs year o params st
        = some (substitute T (mergeParams o (params ++ [⟨"$year".toList, Itoa year⟩]) defaults),
            afterRead fs file st) ∧
      (⟨"$year".toList, Itoa year⟩ : TemplateParam)
        ∈ mergeParams o (params ++ [⟨"$year".toList, Itoa year⟩]) defaults) ∧
    (params = [] →
      (∀ p ∈ defaults, ¬ p.Key <:+: T ∧
        ¬ p.Key <:+: ReplaceAll T "$year".toList (Itoa year)) →
      buildFooter cfg fs year o params st
        = some (ReplaceAll T "$year".toList (Itoa year), afterRead fs file st)) ∧
    (params = [] →
      (∀ p ∈ mergeParams o [⟨"$year".toList, Itoa year⟩] defaults,
        p.Key.head? = some '$' ∧ '$' ∉ p.Key.tail) →
      (∀ p ∈ mergeParams o [⟨"$year".toList, Itoa year⟩] defaults, '$' ∉ p.Value) →
      (∀ p ∈ mergeParams o [⟨"$year".toList, Itoa year⟩] defaults,
        ∀ q ∈ mergeParams o [⟨"$year".toList, Itoa year⟩] defaults,
          p.Key <+: q.Key → p = q) →
      (∀ w ∈ T.tails, w.head? = some '$' →
        ∃ p ∈ mergeParams o [⟨"$year".toList, Itoa year⟩] defaults, p.Key <+: w) →
      buildFooter cfg fs year o params st
        = some (substitute (ReplaceAll T "$year".toList (Itoa year))
            ((mergeParams o [⟨"$year".toList, Itoa year⟩] defaults).erase
              ⟨"$year".toList, Itoa year⟩),
            afterRead fs file st)) := by
  refine ⟨⟨buildFooter_eq cfg fs year o params defaults file st T hcfg hT,
    yearParam_mem_mergeParams o params defaults _⟩, ?_, ?_⟩
  · intro hp hkeys
    subst hp
    rw [buildFooter_eq cfg fs year o [] defaults file st T hcfg hT]
    congr 2
    by_cases hd : defaults = []
    · subst hd
      rw [mergeParams_nil_right]
      rfl
    · obtain ⟨l1, l2, hsplit, hrest⟩ := mergeParams_split o ([] ++ [yearParam year]) defaults
        (by simp) hd (yearParam year) (yearParam_mem_mergeParams o [] defaults _)
      have hmem : ∀ p, p ∈ l1 ∨ p ∈ l2 → p ∈ defaults := by
        intro p hp
        have := hrest p hp
        have h2 := this.2
        simp only [List.nil_append, List.singleton_append, List.mem_cons] at h2
        rcases h2 with h2 | h2
        · exact absurd (by rw [h2]) this.1
        · exact h2
      rw [hsplit]
      exact substitute_around T (yearParam year) l1 l2
        (fun p hp => (hkeys p (hmem p (Or.inl hp))).1)
        (fun p hp => (hkeys p (hmem p (Or.inr hp))).2)
  · intro hp hkey hval hpre hsig
    subst hp
    rw [buildFooter_eq cfg fs year o [] defaults file st T hcfg hT]
    congr 2
    have hmem : yearParam year ∈ mergeParams o [yearParam year] defaults :=
      yearParam_mem_mergeParams o [] defaults _
    have hperm := List.perm_cons_erase hmem
    have h := substitute_perm '$' T (mergeParams o [yearParam year] defaults) hkey hval hpre
      hsig _ hperm.symm
    rw [substitute_cons] at h
    exact h.symm

theorem buildFooter_year_injected_witness :
    (⟨"$year".toList, Itoa 2026⟩ : TemplateParam)
        ∈ mergeParams IterOrder.reversed ([] ++ [⟨"$year".toList, Itoa 2026⟩])
          [⟨"$x".toList, "ACME".toList⟩] ∧
      buildFooter
          ⟨[], none, none, none, some ⟨"footer".toList, some ⟨[⟨"$z".toList, "Z".toList⟩]⟩⟩, []⟩
          sampleFiles 2026 IterOrder.reversed [] emptyState
        = some (ReplaceAll "$x $year".toList "$year".toList (Itoa 2026),
            afterRead sampleFiles "footer".toList emptyState) ∧
      buildFooter
          ⟨[], none, none, none,
            some ⟨"footer".toList, some ⟨[⟨"$x".toList, "ACME".toList⟩]⟩⟩, []⟩
          sampleFiles 2026 IterOrder.reversed [] emptyState
        = some (substitute (ReplaceAll "$x $year".toList "$year".toList (Itoa 2026))
            ((mergeParams IterOrder.reversed [⟨"$year".toList, Itoa 2026⟩]
              [⟨"$x".toList, "ACME".toList⟩]).erase ⟨"$year".toList, Itoa 2026⟩),
            afterRead sampleFiles "footer".toList emptyState) ∧
      substitute (ReplaceAll "$x $year".toList "$year".toList (Itoa 2026))
          ((mergeParams IterOrder.reversed [⟨"$year".toList, Itoa 2026⟩]
            [⟨"$x".toList, "ACME".toList⟩]).erase ⟨"$year".toList, Itoa 2026⟩)
        = "ACME 2026".toList :=
  ⟨(buildFooter_year_injected
      ⟨[], none, none, none, some ⟨"footer".toList, some ⟨[⟨"$x".toList, "ACME".toList⟩]⟩⟩, []⟩
      sampleFiles 2026 IterOrder.reversed [] [⟨"$x".toList, "ACME".toList⟩]
      "footer".toList emptyState "$x $year".toList rfl (by decide)).1.2,
    (buildFooter_year_injected
      ⟨[], none, none, none, some ⟨"footer".toList, some ⟨[⟨"$z".toList, "Z".toList⟩]⟩⟩, []⟩
      sampleFiles 2026 IterOrder.reversed [] [⟨"$z".toList, "Z".toList⟩]
      "footer".toList emptyState "$x $year".toList rfl (by decide)).2.1 rfl (by decide),
    (buildFooter_year_injected
      ⟨[], none, none, none, some ⟨"footer".toList, some ⟨[⟨"$x".toList, "ACME".toList⟩]⟩⟩, []⟩
      sampleFiles 2026 IterOrder.reversed [] [⟨"$x".toList, "ACME".toList⟩]
      "footer".toList emptyState "$x $year".toList rfl (by decide)).2.2 rfl
      (by decide) (by decide) (by decide) (by decide),
    by decide⟩

end Landing
